import Mathlib

/-!
Verification of the graph-search library (`graph_search_algorithms.py`).

The `Graph` class stores an adjacency mapping (a Python `defaultdict(list)`,
i.e. an insertion-ordered dictionary from string vertex identifiers to lists
of neighbor identifiers) together with a `directed` flag.  We embed the
dictionary as an association list `List (String × List String)` kept in
insertion order (Python dictionaries preserve insertion order, and a
dictionary never holds a key twice), and Python sets of vertices as
`Finset String` (only membership and size are ever used).
-/

structure Graph where
  directed : Bool
  adj : List (String × List String)

namespace Graph

/-- The keys of the adjacency mapping, in insertion order (`dict.keys()`). -/
def keys (g : Graph) : List String := g.adj.map Prod.fst

/-- The keys as a finite set; used only for termination measures. -/
def keysF (g : Graph) : Finset String := g.keys.toFinset

/-- Association-list lookup with default `[]`: `self.adjacency_list.get(v, [])`,
which is also the value of `self.adjacency_list[v]` for a present key `v`. -/
def lookupAdj : List (String × List String) → String → List String
  | [], _ => []
  | (k, l) :: rest, v => if k = v then l else lookupAdj rest v

/-- `get_neighbors(vertex)`: `return self.adjacency_list.get(vertex, [])`. -/
def get_neighbors (g : Graph) (v : String) : List String := lookupAdj g.adj v

/-- `get_vertices()`: `return list(self.adjacency_list.keys())`. -/
def get_vertices (g : Graph) : List String := g.keys

/-- `add_vertex(vertex)`: insert the key with an empty list if absent. -/
def add_vertex (g : Graph) (v : String) : Graph :=
  if v ∈ g.keys then g else ⟨g.directed, g.adj ++ [(v, [])]⟩

/-- Append `x` to the neighbor list stored under key `u`
(`self.adjacency_list[u].append(x)` for a present key `u`). -/
def appendNbr (adj : List (String × List String)) (u x : String) :
    List (String × List String) :=
  adj.map fun kv => if kv.1 = u then (kv.1, kv.2 ++ [x]) else kv

/-- `add_edge(start, end)`: ensure both endpoints are keys (in order: `start`
first, then `end`), append `end` to `start`'s list, and if the graph is
undirected also append `start` to `end`'s list. -/
def add_edge (g : Graph) (start e : String) : Graph :=
  let a1 := if start ∈ g.keys then g.adj else g.adj ++ [(start, [])]
  let a2 := if e ∈ a1.map Prod.fst then a1 else a1 ++ [(e, [])]
  let a3 := appendNbr a2 start e
  ⟨g.directed, if g.directed then a3 else appendNbr a3 e start⟩

/-- Every neighbor occurring in some adjacency list is itself a key
(the spec's data-model invariant; it holds for every graph built through
`add_vertex`/`add_edge`, see the invariant-preservation theorems below). -/
def closed (g : Graph) : Prop :=
  ∀ kv ∈ g.adj, ∀ n ∈ kv.2, n ∈ g.keys

instance (g : Graph) : Decidable (closed g) := by
  unfold closed; infer_instance

lemma lookupAdj_eq_nil {l : List (String × List String)} {v : String}
    (h : v ∉ l.map Prod.fst) : lookupAdj l v = [] := by
  induction l with
  | nil => rfl
  | cons kv rest ih =>
    unfold lookupAdj
    rw [if_neg, ih]
    · intro hm; exact h (by simp [hm])
    · intro he; exact h (by simp [← he])

lemma get_neighbors_eq_nil {g : Graph} {v : String} (h : v ∉ g.keys) :
    g.get_neighbors v = [] :=
  lookupAdj_eq_nil (by simpa [keys] using h)

lemma card_sdiff_lt_of_insert_subset {c : String} {K V W : Finset String}
    (hcK : c ∈ K) (hcV : c ∉ V) (hW : insert c V ⊆ W) :
    (K \ W).card < (K \ V).card := by
  apply Finset.card_lt_card
  constructor
  · intro x hx
    rcases Finset.mem_sdiff.mp hx with ⟨hxK, hxW⟩
    exact Finset.mem_sdiff.mpr ⟨hxK, fun hxV => hxW (hW (Finset.mem_insert_of_mem hxV))⟩
  · intro hsub
    have hc : c ∈ K \ V := Finset.mem_sdiff.mpr ⟨hcK, hcV⟩
    have := hsub hc
    rcases Finset.mem_sdiff.mp this with ⟨_, hcW⟩
    exact hcW (hW (Finset.mem_insert_self c V))

lemma sdiff_insert_of_not_mem {c : String} {K V : Finset String}
    (hcK : c ∉ K) : K \ insert c V = K \ V := by
  ext x
  simp only [Finset.mem_sdiff, Finset.mem_insert]
  constructor
  · rintro ⟨hxK, hx⟩; exact ⟨hxK, fun h => hx (Or.inr h)⟩
  · rintro ⟨hxK, hx⟩
    refine ⟨hxK, fun h => ?_⟩
    rcases h with rfl | h
    · exact hcK hxK
    · exact hx h

/-- The body of `breadth_first_search`: FIFO queue (head = front, new items
appended at the back), visited check at dequeue time; a dequeued unvisited
vertex is marked visited and emitted, and its not-yet-visited neighbors are
enqueued in adjacency order. -/
def bfsLoop (g : Graph) : List String → Finset String → List String
  | [], _ => []
  | c :: q, V =>
    if c ∈ V then bfsLoop g q V
    else c :: bfsLoop g (q ++ (g.get_neighbors c).filter (· ∉ insert c V)) (insert c V)
termination_by q V => ((g.keysF \ V).card, q.length)
decreasing_by
  · exact Prod.Lex.right _ (Nat.lt_succ_self _)
  · by_cases hc : c ∈ g.keysF
    · exact Prod.Lex.left _ _ (card_sdiff_lt_of_insert_subset hc (by assumption) (by rfl))
    · rw [sdiff_insert_of_not_mem hc]
      apply Prod.Lex.right
      have hnb : g.get_neighbors c = [] :=
        get_neighbors_eq_nil (fun h => hc (List.mem_toFinset.mpr h))
      simp [hnb, Nat.lt_succ_self]

/-- `breadth_first_search(start)`. -/
def breadth_first_search (g : Graph) (start : String) : List String :=
  if start ∉ g.keys then [] else bfsLoop g [start] ∅

/-- The body of `depth_first_search`: explicit LIFO stack, modelled with the
top of the stack at the head of the list (so Python's `stack.append`/`pop`
work at the head).  A popped unvisited vertex is marked and emitted, and its
not-yet-visited neighbors are pushed one by one in reversed adjacency order;
after those pushes the first neighbor sits on top, i.e. the new stack is
`(reversed neighbors, filtered) reversed ++ old stack`. -/
def dfsLoop (g : Graph) : List String → Finset String → List String
  | [], _ => []
  | c :: s, V =>
    if c ∈ V then dfsLoop g s V
    else c :: dfsLoop g
      (((g.get_neighbors c).reverse.filter (· ∉ insert c V)).reverse ++ s) (insert c V)
termination_by s V => ((g.keysF \ V).card, s.length)
decreasing_by
  · exact Prod.Lex.right _ (Nat.lt_succ_self _)
  · by_cases hc : c ∈ g.keysF
    · exact Prod.Lex.left _ _ (card_sdiff_lt_of_insert_subset hc (by assumption) (by rfl))
    · rw [sdiff_insert_of_not_mem hc]
      apply Prod.Lex.right
      have hnb : g.get_neighbors c = [] :=
        get_neighbors_eq_nil (fun h => hc (List.mem_toFinset.mpr h))
      simp [hnb, Nat.lt_succ_self]

/-- `depth_first_search(start)` (iterative). -/
def depth_first_search (g : Graph) (start : String) : List String :=
  if start ∉ g.keys then [] else dfsLoop g [start] ∅

/-- The recursion of `dfs_recursive`, presented on a work list: `dfsL g l V`
runs `dfs_recursive` on each vertex of `l` in order, sharing one mutable
visited set across the whole call tree.  A head vertex that is unknown or
already visited contributes nothing (the callee's entry check, which also
subsumes the caller's redundant `if neighbor not in visited` test);
otherwise it is visited, emitted, and its neighbor list is processed
recursively before the rest of `l`.  In the source every vertex added to
`visited` is simultaneously appended to the produced result, so the visited
set after a call is the set before it plus the vertices of the returned
list; the recursion below re-expresses the threaded set that way
(`insert c V ∪ r1.toFinset`), which also makes termination manifest. -/
def dfsL (g : Graph) : List String → Finset String → List String
  | [], _ => []
  | c :: rest, V =>
    if c ∉ g.keys ∨ c ∈ V then dfsL g rest V
    else
      let r1 := dfsL g (g.get_neighbors c) (insert c V)
      c :: (r1 ++ dfsL g rest (insert c V ∪ r1.toFinset))
termination_by l V => ((g.keysF \ V).card, l.length)
decreasing_by
  · exact Prod.Lex.right _ (Nat.lt_succ_self _)
  · rename_i h
    rw [not_or] at h
    apply Prod.Lex.left
    apply card_sdiff_lt_of_insert_subset (List.mem_toFinset.mpr (not_not.mp h.1)) h.2
    rfl
  · rename_i h
    rw [not_or] at h
    apply Prod.Lex.left
    apply card_sdiff_lt_of_insert_subset (List.mem_toFinset.mpr (not_not.mp h.1)) h.2
    exact Finset.subset_union_left

/-- `dfs_recursive(start)` with the default empty visited set. -/
def dfs_recursive (g : Graph) (start : String) : List String := dfsL g [start] ∅

/-- The `for neighbor in self.adjacency_list[current]` body shared by
`find_path_bfs` and `find_path_dfs`: scan the neighbors in order; on the
first neighbor equal to `target` return `path + [target]` (`.error`),
otherwise collect `(neighbor, path + [neighbor])` entries for the
not-yet-visited neighbors (`.ok`); entries collected before an early return
are discarded with the rest of the worklist, so they are not reported. -/
def fpScan (target : String) (V : Finset String) (path : List String) :
    List String → Except (List String) (List (String × List String))
  | [] => .ok []
  | n :: ns =>
    if n = target then .error (path ++ [n])
    else if n ∈ V then fpScan target V path ns
    else (fpScan target V path ns).map (fun l => (n, path ++ [n]) :: l)

lemma fpScan_eq (target : String) (V : Finset String) (path : List String)
    (ns : List String) :
    fpScan target V path ns =
      if target ∈ ns then .error (path ++ [target])
      else .ok ((ns.filter (· ∉ V)).map fun n => (n, path ++ [n])) := by
  induction ns with
  | nil => simp [fpScan]
  | cons n ns ih =>
    by_cases hn : n = target
    · subst hn
      simp [fpScan]
    · have hn' : target ≠ n := Ne.symm hn
      rw [fpScan, if_neg hn]
      by_cases hv : n ∈ V
      · rw [if_pos hv, ih]
        by_cases ht : target ∈ ns
        · simp [ht, hn', hv]
        · simp [ht, hn', hv]
      · rw [if_neg hv, ih]
        by_cases ht : target ∈ ns
        · simp [ht, hn', hv, Except.map]
        · simp [ht, hn', hv, Except.map]

/-- The body of `find_path_bfs`: FIFO queue of `(vertex, path)` pairs;
a dequeued pair whose vertex is visited is skipped, otherwise the vertex is
marked and its neighbors scanned (early return on `target`, enqueue of
unvisited neighbors with extended paths). -/
def fpBfsLoop (g : Graph) (target : String) :
    List (String × List String) → Finset String → Option (List String)
  | [], _ => none
  | (c, p) :: q, V =>
    if c ∈ V then fpBfsLoop g target q V
    else
      match h : fpScan target (insert c V) p (g.get_neighbors c) with
      | .error r => some r
      | .ok adds => fpBfsLoop g target (q ++ adds) (insert c V)
termination_by q V => ((g.keysF \ V).card, q.length)
decreasing_by
  · exact Prod.Lex.right _ (Nat.lt_succ_self _)
  · by_cases hc : c ∈ g.keysF
    · exact Prod.Lex.left _ _ (card_sdiff_lt_of_insert_subset hc (by assumption) (by rfl))
    · rw [sdiff_insert_of_not_mem hc]
      apply Prod.Lex.right
      have hnb : g.get_neighbors c = [] :=
        get_neighbors_eq_nil (fun h => hc (List.mem_toFinset.mpr h))
      rw [hnb] at h
      simp [fpScan] at h
      simp [h, Nat.lt_succ_self]

/-- `find_path_bfs(start, target)`. -/
def find_path_bfs (g : Graph) (start target : String) : Option (List String) :=
  if start ∉ g.keys ∨ target ∉ g.keys then none
  else if start = target then some [start]
  else fpBfsLoop g target [(start, [start])] ∅

/-- The body of `find_path_dfs`: LIFO stack of `(vertex, path)` pairs (top at
the head); the unvisited neighbors are pushed one by one in adjacency order,
so after the pushes they sit on the stack in reversed order. -/
def fpDfsLoop (g : Graph) (target : String) :
    List (String × List String) → Finset String → Option (List String)
  | [], _ => none
  | (c, p) :: s, V =>
    if c ∈ V then fpDfsLoop g target s V
    else
      match h : fpScan target (insert c V) p (g.get_neighbors c) with
      | .error r => some r
      | .ok adds => fpDfsLoop g target (adds.reverse ++ s) (insert c V)
termination_by s V => ((g.keysF \ V).card, s.length)
decreasing_by
  · exact Prod.Lex.right _ (Nat.lt_succ_self _)
  · by_cases hc : c ∈ g.keysF
    · exact Prod.Lex.left _ _ (card_sdiff_lt_of_insert_subset hc (by assumption) (by rfl))
    · rw [sdiff_insert_of_not_mem hc]
      apply Prod.Lex.right
      have hnb : g.get_neighbors c = [] :=
        get_neighbors_eq_nil (fun h => hc (List.mem_toFinset.mpr h))
      rw [hnb] at h
      simp [fpScan] at h
      simp [h, Nat.lt_succ_self]

/-- `find_path_dfs(start, target)`. -/
def find_path_dfs (g : Graph) (start target : String) : Option (List String) :=
  if start ∉ g.keys ∨ target ∉ g.keys then none
  else if start = target then some [start]
  else fpDfsLoop g target [(start, [start])] ∅

/-- The inner BFS of `connected_components_bfs`; the source repeats the
`breadth_first_search` loop verbatim, but here the visited set is shared with
the outer loop, so this variant also returns the final visited set (in the
source every vertex added to `visited` is simultaneously appended to
`component`, so the returned set is the input set plus the emitted
vertices). -/
def ccBfsLoop (g : Graph) : List String → Finset String → List String × Finset String
  | [], V => ([], V)
  | c :: q, V =>
    if c ∈ V then ccBfsLoop g q V
    else
      let r := ccBfsLoop g (q ++ (g.get_neighbors c).filter (· ∉ insert c V)) (insert c V)
      (c :: r.1, r.2)
termination_by q V => ((g.keysF \ V).card, q.length)
decreasing_by
  · exact Prod.Lex.right _ (Nat.lt_succ_self _)
  · by_cases hc : c ∈ g.keysF
    · exact Prod.Lex.left _ _ (card_sdiff_lt_of_insert_subset hc (by assumption) (by rfl))
    · rw [sdiff_insert_of_not_mem hc]
      apply Prod.Lex.right
      have hnb : g.get_neighbors c = [] :=
        get_neighbors_eq_nil (fun h => hc (List.mem_toFinset.mpr h))
      simp [hnb, Nat.lt_succ_self]

/-- The outer loop of `connected_components_bfs`: iterate over the keys in
mapping order; for each not-yet-visited vertex run the inner BFS (seeded with
that vertex, sharing the global visited set) and append the resulting
component if it is nonempty. -/
def ccLoop (g : Graph) : List String → Finset String → List (List String)
  | [], _ => []
  | v :: vs, V =>
    if v ∈ V then ccLoop g vs V
    else
      let r := ccBfsLoop g [v] V
      if r.1.isEmpty then ccLoop g vs r.2 else r.1 :: ccLoop g vs r.2

/-- `connected_components_bfs()`. -/
def connected_components_bfs (g : Graph) : List (List String) :=
  ccLoop g g.keys ∅

/-- `is_connected()`: `True` for the empty mapping; otherwise compare the
number of distinct vertices visited by a BFS from the first key in mapping
order (`len(set(bfs(start)))`) with the number of keys
(`len(self.adjacency_list)`; the keys of a Python dictionary are distinct,
so this is the length of the association list). -/
def is_connected (g : Graph) : Bool :=
  match g.adj with
  | [] => true
  | (k, _) :: _ => (breadth_first_search g k).toFinset.card == g.adj.length

/-! ### Reachability -/

/-- Forward reachability along adjacency edges: `Reaches g v w` holds when
there is a (possibly empty) chain of edges `v → … → w`, an edge `a → b`
meaning `b ∈ g.get_neighbors a`. -/
inductive Reaches (g : Graph) : String → String → Prop
  | refl (v : String) : Reaches g v v
  | cons {v n w : String} (hn : n ∈ g.get_neighbors v) (h : Reaches g n w) :
      Reaches g v w

/-- Reachability along a chain all of whose vertices avoid the set `A`. -/
inductive ReachAvoid (g : Graph) (A : Finset String) : String → String → Prop
  | refl (v : String) (hv : v ∉ A) : ReachAvoid g A v v
  | cons {v n w : String} (hv : v ∉ A) (hn : n ∈ g.get_neighbors v)
      (h : ReachAvoid g A n w) : ReachAvoid g A v w

lemma ReachAvoid.not_mem_left {g : Graph} {A : Finset String} {v w : String}
    (h : ReachAvoid g A v w) : v ∉ A := by
  cases h with
  | refl _ hv => exact hv
  | cons hv _ _ => exact hv

lemma ReachAvoid.mono {g : Graph} {A B : Finset String} {v w : String}
    (hBA : B ⊆ A) (h : ReachAvoid g A v w) : ReachAvoid g B v w := by
  induction h with
  | refl v hv => exact .refl v (fun hm => hv (hBA hm))
  | cons hv hn _ ih => exact .cons (fun hm => hv (hBA hm)) hn ih

lemma reachAvoid_empty_iff {g : Graph} {v w : String} :
    ReachAvoid g ∅ v w ↔ Reaches g v w := by
  constructor
  · intro h
    induction h with
    | refl v _ => exact .refl v
    | cons _ hn _ ih => exact .cons hn ih
  · intro h
    induction h with
    | refl v => exact .refl v (Finset.not_mem_empty v)
    | cons hn _ ih => exact .cons (Finset.not_mem_empty _) hn ih

/-- If a list `E` is closed under adjacency relative to `V` (every neighbor
of a member of `E` is in `V` or in `E`), then `E` absorbs every `V`-avoiding
chain that starts in `V ∪ E`. -/
lemma reach_closure_complete {g : Graph} {V : Finset String} {E : List String}
    (hE : ∀ x ∈ E, ∀ n ∈ g.get_neighbors x, n ∈ V ∨ n ∈ E) :
    ∀ {s w : String}, ReachAvoid g V s w → (s ∈ V ∨ s ∈ E) → w ∈ E := by
  intro s w h
  induction h with
  | refl v hv => exact fun hs => hs.resolve_left hv
  | cons hv hn h ih =>
    intro hs
    have hvE := hs.resolve_left hv
    exact ih (hE _ hvE _ hn)

/-! ### Membership, freshness and disjointness lemmas for the BFS loop -/

lemma bfsLoop_not_mem_visited (g : Graph) :
    ∀ q V, ∀ w ∈ bfsLoop g q V, w ∉ V := by
  intro q V
  induction q, V using bfsLoop.induct g with
  | case1 => simp [bfsLoop]
  | case2 c q V hc ih =>
    rw [bfsLoop, if_pos hc]
    exact ih
  | case3 c q V hc ih =>
    rw [bfsLoop, if_neg hc]
    intro w hw
    rcases List.mem_cons.mp hw with rfl | hw
    · exact hc
    · exact fun hwV => ih w hw (Finset.mem_insert_of_mem hwV)

lemma bfsLoop_nodup (g : Graph) : ∀ q V, (bfsLoop g q V).Nodup := by
  intro q V
  induction q, V using bfsLoop.induct g with
  | case1 => simp [bfsLoop]
  | case2 c q V hc ih => rw [bfsLoop, if_pos hc]; exact ih
  | case3 c q V hc ih =>
    rw [bfsLoop, if_neg hc]
    refine List.nodup_cons.mpr ⟨fun hmem => ?_, ih⟩
    exact bfsLoop_not_mem_visited g _ _ c hmem (Finset.mem_insert_self c V)

lemma bfsLoop_sound (g : Graph) :
    ∀ q V, ∀ w ∈ bfsLoop g q V, ∃ s ∈ q, ReachAvoid g V s w := by
  intro q V
  induction q, V using bfsLoop.induct g with
  | case1 => simp [bfsLoop]
  | case2 c q V hc ih =>
    rw [bfsLoop, if_pos hc]
    intro w hw
    obtain ⟨s, hs, hr⟩ := ih w hw
    exact ⟨s, List.mem_cons_of_mem c hs, hr⟩
  | case3 c q V hc ih =>
    rw [bfsLoop, if_neg hc]
    intro w hw
    rcases List.mem_cons.mp hw with rfl | hw
    · exact ⟨w, List.mem_cons_self w q, .refl w hc⟩
    · obtain ⟨s, hs, hr⟩ := ih w hw
      rcases List.mem_append.mp hs with hsq | hsf
      · exact ⟨s, List.mem_cons_of_mem c hsq,
          hr.mono (Finset.subset_insert c V)⟩
      · obtain ⟨hsn, hsv⟩ := List.mem_filter.mp hsf
        exact ⟨c, List.mem_cons_self c q,
          .cons hc hsn (hr.mono (Finset.subset_insert c V))⟩

lemma bfsLoop_worklist_absorbed (g : Graph) :
    ∀ q V, ∀ s ∈ q, s ∈ V ∨ s ∈ bfsLoop g q V := by
  intro q V
  induction q, V using bfsLoop.induct g with
  | case1 => simp
  | case2 c q V hc ih =>
    rw [bfsLoop, if_pos hc]
    intro s hs
    rcases List.mem_cons.mp hs with rfl | hs
    · exact Or.inl hc
    · exact ih s hs
  | case3 c q V hc ih =>
    rw [bfsLoop, if_neg hc]
    intro s hs
    rcases List.mem_cons.mp hs with rfl | hs
    · exact Or.inr (List.mem_cons_self _ _)
    · rcases ih s (List.mem_append_left _ hs) with hv | he
      · rcases Finset.mem_insert.mp hv with rfl | hv
        · exact Or.inr (List.mem_cons_self _ _)
        · exact Or.inl hv
      · exact Or.inr (List.mem_cons_of_mem c he)

lemma bfsLoop_closure (g : Graph) :
    ∀ q V, ∀ x ∈ bfsLoop g q V, ∀ n ∈ g.get_neighbors x,
      n ∈ V ∨ n ∈ bfsLoop g q V := by
  intro q V
  induction q, V using bfsLoop.induct g with
  | case1 => simp [bfsLoop]
  | case2 c q V hc ih => rw [bfsLoop, if_pos hc]; exact ih
  | case3 c q V hc ih =>
    rw [bfsLoop, if_neg hc]
    intro x hx n hn
    have absorb := bfsLoop_worklist_absorbed g
      (q ++ (g.get_neighbors c).filter (· ∉ insert c V)) (insert c V)
    rcases List.mem_cons.mp hx with rfl | hx
    · by_cases hnv : n ∈ insert x V
      · rcases Finset.mem_insert.mp hnv with rfl | hnv
        · exact Or.inr (List.mem_cons_self _ _)
        · exact Or.inl hnv
      · have : n ∈ (g.get_neighbors x).filter (· ∉ insert x V) :=
          List.mem_filter.mpr ⟨hn, by simpa using hnv⟩
        rcases absorb n (List.mem_append_right _ this) with hv | he
        · exact absurd hv hnv
        · exact Or.inr (List.mem_cons_of_mem _ he)
    · rcases ih x hx n hn with hv | he
      · rcases Finset.mem_insert.mp hv with rfl | hv
        · exact Or.inr (List.mem_cons_self _ _)
        · exact Or.inl hv
      · exact Or.inr (List.mem_cons_of_mem _ he)

/-- Full characterization of the vertices emitted by the BFS loop: exactly
those reachable from the worklist along chains avoiding the visited set. -/
lemma bfsLoop_mem_iff (g : Graph) (q : List String) (V : Finset String)
    (w : String) :
    w ∈ bfsLoop g q V ↔ ∃ s ∈ q, ReachAvoid g V s w := by
  constructor
  · exact bfsLoop_sound g q V w
  · rintro ⟨s, hs, hr⟩
    have hsV : s ∉ V := hr.not_mem_left
    have hsE : s ∈ bfsLoop g q V :=
      (bfsLoop_worklist_absorbed g q V s hs).resolve_left hsV
    exact reach_closure_complete (bfsLoop_closure g q V) hr (Or.inr hsE)

/-! ### The same lemmas for the iterative DFS loop -/

lemma reverse_filter_reverse (p : String → Bool) (l : List String) :
    (l.reverse.filter p).reverse = l.filter p := by
  rw [List.filter_reverse, List.reverse_reverse]

lemma dfsLoop_not_mem_visited (g : Graph) :
    ∀ s V, ∀ w ∈ dfsLoop g s V, w ∉ V := by
  intro s V
  induction s, V using dfsLoop.induct g with
  | case1 => simp [dfsLoop]
  | case2 c s V hc ih => rw [dfsLoop, if_pos hc]; exact ih
  | case3 c s V hc ih =>
    rw [dfsLoop, if_neg hc]
    intro w hw
    rcases List.mem_cons.mp hw with rfl | hw
    · exact hc
    · exact fun hwV => ih w hw (Finset.mem_insert_of_mem hwV)

lemma dfsLoop_nodup (g : Graph) : ∀ s V, (dfsLoop g s V).Nodup := by
  intro s V
  induction s, V using dfsLoop.induct g with
  | case1 => simp [dfsLoop]
  | case2 c s V hc ih => rw [dfsLoop, if_pos hc]; exact ih
  | case3 c s V hc ih =>
    rw [dfsLoop, if_neg hc]
    refine List.nodup_cons.mpr ⟨fun hmem => ?_, ih⟩
    exact dfsLoop_not_mem_visited g _ _ c hmem (Finset.mem_insert_self c V)

lemma dfsLoop_sound (g : Graph) :
    ∀ s V, ∀ w ∈ dfsLoop g s V, ∃ x ∈ s, ReachAvoid g V x w := by
  intro s V
  induction s, V using dfsLoop.induct g with
  | case1 => simp [dfsLoop]
  | case2 c s V hc ih =>
    rw [dfsLoop, if_pos hc]
    intro w hw
    obtain ⟨x, hx, hr⟩ := ih w hw
    exact ⟨x, List.mem_cons_of_mem c hx, hr⟩
  | case3 c s V hc ih =>
    rw [dfsLoop, if_neg hc]
    intro w hw
    rcases List.mem_cons.mp hw with rfl | hw
    · exact ⟨w, List.mem_cons_self w s, .refl w hc⟩
    · obtain ⟨x, hx, hr⟩ := ih w hw
      rcases List.mem_append.mp hx with hxf | hxs
      · rw [reverse_filter_reverse] at hxf
        obtain ⟨hxn, _⟩ := List.mem_filter.mp hxf
        exact ⟨c, List.mem_cons_self c s,
          .cons hc hxn (hr.mono (Finset.subset_insert c V))⟩
      · exact ⟨x, List.mem_cons_of_mem c hxs,
          hr.mono (Finset.subset_insert c V)⟩

lemma dfsLoop_worklist_absorbed (g : Graph) :
    ∀ s V, ∀ x ∈ s, x ∈ V ∨ x ∈ dfsLoop g s V := by
  intro s V
  induction s, V using dfsLoop.induct g with
  | case1 => simp
  | case2 c s V hc ih =>
    rw [dfsLoop, if_pos hc]
    intro x hx
    rcases List.mem_cons.mp hx with rfl | hx
    · exact Or.inl hc
    · exact ih x hx
  | case3 c s V hc ih =>
    rw [dfsLoop, if_neg hc]
    intro x hx
    rcases List.mem_cons.mp hx with rfl | hx
    · exact Or.inr (List.mem_cons_self _ _)
    · rcases ih x (List.mem_append_right _ hx) with hv | he
      · rcases Finset.mem_insert.mp hv with rfl | hv
        · exact Or.inr (List.mem_cons_self _ _)
        · exact Or.inl hv
      · exact Or.inr (List.mem_cons_of_mem c he)

lemma dfsLoop_closure (g : Graph) :
    ∀ s V, ∀ x ∈ dfsLoop g s V, ∀ n ∈ g.get_neighbors x,
      n ∈ V ∨ n ∈ dfsLoop g s V := by
  intro s V
  induction s, V using dfsLoop.induct g with
  | case1 => simp [dfsLoop]
  | case2 c s V hc ih => rw [dfsLoop, if_pos hc]; exact ih
  | case3 c s V hc ih =>
    rw [dfsLoop, if_neg hc]
    intro x hx n hn
    have absorb := dfsLoop_worklist_absorbed g
      (((g.get_neighbors c).reverse.filter (· ∉ insert c V)).reverse ++ s)
      (insert c V)
    rcases List.mem_cons.mp hx with rfl | hx
    · by_cases hnv : n ∈ insert x V
      · rcases Finset.mem_insert.mp hnv with rfl | hnv
        · exact Or.inr (List.mem_cons_self _ _)
        · exact Or.inl hnv
      · have hnf : n ∈ ((g.get_neighbors x).reverse.filter
            (· ∉ insert x V)).reverse := by
          rw [reverse_filter_reverse]
          exact List.mem_filter.mpr ⟨hn, by simpa using hnv⟩
        rcases absorb n (List.mem_append_left _ hnf) with hv | he
        · exact absurd hv hnv
        · exact Or.inr (List.mem_cons_of_mem _ he)
    · rcases ih x hx n hn with hv | he
      · rcases Finset.mem_insert.mp hv with rfl | hv
        · exact Or.inr (List.mem_cons_self _ _)
        · exact Or.inl hv
      · exact Or.inr (List.mem_cons_of_mem _ he)

lemma dfsLoop_mem_iff (g : Graph) (s : List String) (V : Finset String)
    (w : String) :
    w ∈ dfsLoop g s V ↔ ∃ x ∈ s, ReachAvoid g V x w := by
  constructor
  · exact dfsLoop_sound g s V w
  · rintro ⟨x, hx, hr⟩
    have hxV : x ∉ V := hr.not_mem_left
    have hxE : x ∈ dfsLoop g s V :=
      (dfsLoop_worklist_absorbed g s V x hx).resolve_left hxV
    exact reach_closure_complete (dfsLoop_closure g s V) hr (Or.inr hxE)

/-! ### Membership in the traversal results -/

lemma breadth_first_search_mem_iff {g : Graph} {start : String}
    (hs : start ∈ g.keys) (w : String) :
    w ∈ breadth_first_search g start ↔ Reaches g start w := by
  rw [breadth_first_search, if_neg (by simpa using hs), bfsLoop_mem_iff]
  simp [reachAvoid_empty_iff]

lemma depth_first_search_mem_iff {g : Graph} {start : String}
    (hs : start ∈ g.keys) (w : String) :
    w ∈ depth_first_search g start ↔ Reaches g start w := by
  rw [depth_first_search, if_neg (by simpa using hs), dfsLoop_mem_iff]
  simp [reachAvoid_empty_iff]

lemma breadth_first_search_nodup (g : Graph) (start : String) :
    (breadth_first_search g start).Nodup := by
  rw [breadth_first_search]
  split
  · exact List.nodup_nil
  · exact bfsLoop_nodup g _ _

lemma depth_first_search_nodup (g : Graph) (start : String) :
    (depth_first_search g start).Nodup := by
  rw [depth_first_search]
  split
  · exact List.nodup_nil
  · exact dfsLoop_nodup g _ _

/-! ### The iterative DFS agrees with the recursive DFS -/

lemma lookupAdj_cases (l : List (String × List String)) (v : String) :
    lookupAdj l v = [] ∨ (v, lookupAdj l v) ∈ l := by
  induction l with
  | nil => exact Or.inl rfl
  | cons kv rest ih =>
    rw [lookupAdj]
    obtain ⟨k, d⟩ := kv
    by_cases hk : k = v
    · subst hk
      rw [if_pos rfl]
      exact Or.inr (List.mem_cons_self _ _)
    · rw [if_neg hk]
      exact ih.imp id (List.mem_cons_of_mem _)

lemma mem_keys_of_mem_get_neighbors {g : Graph} (hcl : g.closed) {v n : String}
    (hn : n ∈ g.get_neighbors v) : n ∈ g.keys := by
  rcases lookupAdj_cases g.adj v with h0 | hmem
  · rw [get_neighbors, h0] at hn
    exact absurd hn (List.not_mem_nil n)
  · exact hcl _ hmem n hn

/-- Vertices already covered by a subset of the visited set may be dropped
from a `dfsL` work list: they would be skipped anyway. -/
lemma dfsL_filter (g : Graph) (W : Finset String) :
    ∀ (l : List String) (V : Finset String), (∀ x ∈ W, x ∈ V) →
      dfsL g (l.filter (· ∉ W)) V = dfsL g l V := by
  intro l
  induction l with
  | nil => intro V _; rfl
  | cons a l ih =>
    intro V hWV
    by_cases haW : a ∈ W
    · rw [List.filter_cons_of_neg (by simpa using haW), ih V hWV,
        dfsL, if_pos (Or.inr (hWV a haW))]
    · rw [List.filter_cons_of_pos (by simpa using haW)]
      by_cases hskip : a ∉ g.keys ∨ a ∈ V
      · rw [dfsL, if_pos hskip, dfsL, if_pos hskip, ih V hWV]
      · rw [dfsL, if_neg hskip, dfsL, if_neg hskip]
        have : dfsL g (l.filter (· ∉ W))
            (insert a V ∪ (dfsL g (g.get_neighbors a) (insert a V)).toFinset) =
            dfsL g l
            (insert a V ∪ (dfsL g (g.get_neighbors a) (insert a V)).toFinset) :=
          ih _ (fun x hx => Finset.mem_union_left _
            (Finset.mem_insert_of_mem (hWV x hx)))
        simp only [this]

/-- Splitting a `dfsL` work list: the second part runs with the visited set
extended by everything the first part emitted. -/
lemma dfsL_append (g : Graph) :
    ∀ (l₁ l₂ : List String) (V : Finset String),
      dfsL g (l₁ ++ l₂) V =
        dfsL g l₁ V ++ dfsL g l₂ (V ∪ (dfsL g l₁ V).toFinset) := by
  intro l₁
  induction l₁ with
  | nil => intro l₂ V; simp [dfsL]
  | cons a l₁ ih =>
    intro l₂ V
    by_cases hskip : a ∉ g.keys ∨ a ∈ V
    · rw [List.cons_append, dfsL, if_pos hskip, dfsL, if_pos hskip, ih]
    · rw [List.cons_append, dfsL, if_neg hskip, dfsL, if_neg hskip]
      simp only []
      rw [ih]
      have hset : insert a V ∪ (dfsL g (g.get_neighbors a) (insert a V)).toFinset ∪
          (dfsL g l₁ (insert a V ∪
            (dfsL g (g.get_neighbors a) (insert a V)).toFinset)).toFinset =
          V ∪ (a :: (dfsL g (g.get_neighbors a) (insert a V) ++
            dfsL g l₁ (insert a V ∪
              (dfsL g (g.get_neighbors a) (insert a V)).toFinset))).toFinset := by
        ext x
        simp only [Finset.mem_union, Finset.mem_insert, List.toFinset_cons,
          List.toFinset_append, List.mem_toFinset]
        tauto
      rw [hset]
      simp

/-- On a closed graph the explicit-stack DFS computes, for any stack of known
vertices, exactly what the recursive DFS computes on the same work list: the
reversal of the pushed neighbors makes the stack pops replay the recursive
descent, and the visited-at-pop check discards exactly the stale stack
entries that the recursion would skip. -/
lemma dfsLoop_eq_dfsL {g : Graph} (hcl : g.closed) :
    ∀ (s : List String) (V : Finset String), (∀ x ∈ s, x ∈ g.keys) →
      dfsLoop g s V = dfsL g s V := by
  intro s V
  induction s, V using dfsLoop.induct g with
  | case1 => intro _; rw [dfsLoop, dfsL]
  | case2 c s V hc ih =>
    intro hsub
    rw [dfsLoop, if_pos hc, dfsL, if_pos (Or.inr hc)]
    exact ih (fun x hx => hsub x (List.mem_cons_of_mem c hx))
  | case3 c s V hc ih =>
    intro hsub
    have hck : c ∈ g.keys := hsub c (List.mem_cons_self c s)
    rw [reverse_filter_reverse] at ih
    rw [dfsLoop, if_neg hc, reverse_filter_reverse,
      ih (by
        intro x hx
        rcases List.mem_append.mp hx with hxf | hxs
        · exact mem_keys_of_mem_get_neighbors hcl (List.mem_filter.mp hxf).1
        · exact hsub x (List.mem_cons_of_mem c hxs)),
      dfsL_append, dfsL_filter g (insert c V) _ _ (fun x hx => hx),
      dfsL, if_neg (by simp [hck, hc])]

/-- `depth_first_search` and `dfs_recursive` agree on every start vertex of a
closed graph (for an unknown start vertex both immediately return `[]`). -/
theorem dfs_iterative_eq_recursive {g : Graph} (hcl : g.closed)
    (start : String) : g.depth_first_search start = g.dfs_recursive start := by
  by_cases hs : start ∈ g.keys
  · rw [depth_first_search, if_neg (by simpa using hs), dfs_recursive,
      dfsLoop_eq_dfsL hcl [start] ∅ (by simpa using hs)]
  · rw [depth_first_search, if_pos (by simpa using hs), dfs_recursive,
      dfsL, if_pos (Or.inl hs), dfsL]

/-! ### Paths as vertex lists -/

/-- `IsPath g s t p`: `p` is a nonempty vertex list starting at `s`, ending
at `t`, in which every consecutive pair `(a, b)` is a recorded edge
(`b` occurs in `a`'s neighbor list). -/
def IsPath (g : Graph) (s t : String) (p : List String) : Prop :=
  p.head? = some s ∧ p.getLast? = some t ∧
    p.Chain' (fun a b => b ∈ g.get_neighbors a)

lemma IsPath.ne_nil {g : Graph} {s t : String} {p : List String}
    (h : IsPath g s t p) : p ≠ [] := by
  intro hnil
  rw [hnil] at h
  exact Option.noConfusion h.1

lemma IsPath.length_pos {g : Graph} {s t : String} {p : List String}
    (h : IsPath g s t p) : 1 ≤ p.length :=
  List.length_pos.mpr h.ne_nil

lemma isPath_singleton (g : Graph) (v : String) : IsPath g v v [v] :=
  ⟨rfl, rfl, List.chain'_singleton v⟩

lemma head?_append_of_ne_nil {l l' : List String} (h : l ≠ []) :
    (l ++ l').head? = l.head? := by
  cases l with
  | nil => exact absurd rfl h
  | cons a t => simp

lemma mem_of_getLast?_eq_some {l : List String} {a : String}
    (h : l.getLast? = some a) : a ∈ l := by
  obtain ⟨hne, ha⟩ := List.mem_getLast?_eq_getLast (show a ∈ l.getLast? from h)
  rw [ha]
  exact List.getLast_mem hne

/-- Extend a path by one recorded edge at its end. -/
lemma IsPath.append_edge {g : Graph} {s c n : String} {p : List String}
    (hp : IsPath g s c p) (hn : n ∈ g.get_neighbors c) :
    IsPath g s n (p ++ [n]) := by
  obtain ⟨h1, h2, h3⟩ := hp
  refine ⟨?_, ?_, ?_⟩
  · rw [head?_append_of_ne_nil (by rintro rfl; exact Option.noConfusion h1), h1]
  · exact List.getLast?_concat p
  · rw [List.chain'_append]
    refine ⟨h3, List.chain'_singleton n, ?_⟩
    intro x hx y hy
    rw [h2, Option.mem_def] at hx
    simp only [List.head?_cons, Option.mem_def, Option.some.injEq] at hy
    cases hx
    exact hy ▸ hn

/-- Prepend one recorded edge at the front of a path. -/
lemma IsPath.cons_edge {g : Graph} {v n w : String} {p : List String}
    (hn : n ∈ g.get_neighbors v) (hp : IsPath g n w p) :
    IsPath g v w (v :: p) := by
  obtain ⟨h1, h2, h3⟩ := hp
  refine ⟨rfl, ?_, ?_⟩
  · rw [List.getLast?_cons, h2]
    cases p with
    | nil => exact Option.noConfusion h1
    | cons a t => simp
  · rw [List.chain'_cons']
    refine ⟨?_, h3⟩
    intro h hh
    rw [h1, Option.mem_def, Option.some.injEq] at hh
    exact hh ▸ hn

lemma reaches_iff_exists_path {g : Graph} {s t : String} :
    Reaches g s t ↔ ∃ p, IsPath g s t p := by
  constructor
  · intro h
    induction h with
    | refl v => exact ⟨[v], isPath_singleton g v⟩
    | cons hn _ ih =>
      obtain ⟨p, hp⟩ := ih
      exact ⟨_ :: p, hp.cons_edge hn⟩
  · rintro ⟨p, hp⟩
    induction p generalizing s with
    | nil => exact absurd rfl hp.ne_nil
    | cons a q ih =>
      obtain ⟨h1, h2, h3⟩ := hp
      simp only [List.head?_cons, Option.some.injEq] at h1
      cases q with
      | nil =>
        simp only [List.getLast?_singleton, Option.some.injEq] at h2
        rw [← h1, h2]
        exact .refl _
      | cons b r =>
        rw [List.chain'_cons] at h3
        rw [List.getLast?_cons_cons] at h2
        rw [← h1]
        exact .cons h3.1 (ih (show IsPath g b t (b :: r) from ⟨rfl, h2, h3.2⟩))

/-! ### Correctness of `find_path_bfs` -/

/-- Split a list at its first element outside `V`. -/
lemma exists_first_not_mem {V : Finset String} :
    ∀ (p : List String), (∃ a ∈ p, a ∉ V) →
      ∃ p₁ x p₂, p = p₁ ++ x :: p₂ ∧ (∀ a ∈ p₁, a ∈ V) ∧ x ∉ V := by
  intro p
  induction p with
  | nil => rintro ⟨a, ha, _⟩; exact absurd ha (List.not_mem_nil a)
  | cons b p ih =>
    intro hex
    by_cases hb : b ∈ V
    · obtain ⟨p₁, x, p₂, heq, h₁, hx⟩ := ih (by
        obtain ⟨a, ha, haV⟩ := hex
        rcases List.mem_cons.mp ha with rfl | ha
        · exact absurd hb haV
        · exact ⟨a, ha, haV⟩)
      refine ⟨b :: p₁, x, p₂, by rw [heq, List.cons_append], ?_, hx⟩
      intro a ha
      rcases List.mem_cons.mp ha with rfl | ha
      · exact hb
      · exact h₁ a ha
    · exact ⟨[], b, p, rfl, by simp, hb⟩

/-- Walking an edge chain that stays inside the visited set increases the
ghost dequeue-length function by at most one per step. -/
lemma dv_chain {g : Graph} {V : Finset String} {dv : String → ℕ}
    (hstep : ∀ v ∈ V, ∀ n ∈ g.get_neighbors v, n ∈ V → dv n ≤ dv v + 1) :
    ∀ (p : List String) (hp : p ≠ []),
      p.Chain' (fun a b => b ∈ g.get_neighbors a) → (∀ a ∈ p, a ∈ V) →
      ∀ s, p.head? = some s → dv (p.getLast hp) + 1 ≤ dv s + p.length := by
  intro p
  induction p with
  | nil => intro hp; exact absurd rfl hp
  | cons a q ih =>
    intro _ hchain hmem s hhead
    simp only [List.head?_cons, Option.some.injEq] at hhead
    cases q with
    | nil => simp [List.getLast, ← hhead]
    | cons b r =>
      rw [List.chain'_cons] at hchain
      have hb : dv b ≤ dv a + 1 :=
        hstep a (hmem a (List.mem_cons_self _ _)) b hchain.1
          (hmem b (List.mem_cons_of_mem _ (List.mem_cons_self _ _)))
      have := ih (List.cons_ne_nil b r) hchain.2
        (fun x hx => hmem x (List.mem_cons_of_mem _ hx)) b rfl
      rw [List.getLast_cons (List.cons_ne_nil b r), ← hhead]
      calc dv ((b :: r).getLast (List.cons_ne_nil b r)) + 1
      _ ≤ dv b + (b :: r).length := this
      _ ≤ (dv a + 1) + (b :: r).length := by omega
      _ = dv a + (a :: b :: r).length := by simp [List.length_cons]; omega

lemma sorted_of_const {L : List ℕ} {k : ℕ} (h : ∀ a ∈ L, a = k) :
    L.Sorted (· ≤ ·) := by
  induction L with
  | nil => exact List.sorted_nil
  | cons a t ih =>
    refine List.sorted_cons.mpr ⟨?_, ih (fun b hb => h b (List.mem_cons_of_mem _ hb))⟩
    intro b hb
    rw [h a (List.mem_cons_self _ _), h b (List.mem_cons_of_mem _ hb)]

/-- The loop invariant of `find_path_bfs`, relative to a ghost function `dv`
assigning to every visited vertex the length of the path it was dequeued
with.  The queue holds `(vertex, path)` pairs; paths in the queue are genuine
recorded-edge paths from `start`, their lengths are nondecreasing along the
queue and spread over at most two consecutive values; `target` is never
visited, never carried by a queue entry and never adjacent to a visited
vertex (otherwise the loop would already have returned); every visited
vertex's neighbor is visited (with `dv` exceeding by at most one) or queued
(with path length at most `dv + 1`); `dv` of a visited vertex is at most any
queued path length; queued paths are duplicate-free, avoid `target`, and
consist of visited vertices except for their final entry vertex. -/
structure FpBfsInv (g : Graph) (start target : String)
    (q : List (String × List String)) (V : Finset String) (dv : String → ℕ) :
    Prop where
  paths : ∀ e ∈ q, IsPath g start e.1 e.2
  len_sorted : (q.map (fun e => e.2.length)).Sorted (· ≤ ·)
  two_level : ∀ e₁ ∈ q, ∀ e₂ ∈ q, e₁.2.length ≤ e₂.2.length + 1
  target_not_visited : target ∉ V
  target_not_queued : ∀ e ∈ q, e.1 ≠ target
  target_not_adj : ∀ v ∈ V, target ∉ g.get_neighbors v
  fringe : ∀ v ∈ V, ∀ n ∈ g.get_neighbors v,
    (n ∈ V → dv n ≤ dv v + 1) ∧
    (n ∉ V → ∃ p', (n, p') ∈ q ∧ p'.length ≤ dv v + 1)
  dv_le : ∀ v ∈ V, ∀ e ∈ q, dv v ≤ e.2.length
  start_case : (start ∈ V ∧ dv start = 1) ∨ (V = ∅ ∧ q = [(start, [start])])
  entry_nodup : ∀ e ∈ q, e.2.Nodup ∧ target ∉ e.2
  prefix_visited : ∀ e ∈ q, ∃ p₀, e.2 = p₀ ++ [e.1] ∧ ∀ a ∈ p₀, a ∈ V

/-- Queue paths are never shorter than the path at the head of the queue. -/
lemma FpBfsInv.head_min {g : Graph} {start target c : String} {p : List String}
    {q : List (String × List String)} {V : Finset String} {dv : String → ℕ}
    (inv : FpBfsInv g start target ((c, p) :: q) V dv) :
    ∀ e ∈ (c, p) :: q, p.length ≤ e.2.length := by
  intro e he
  rcases List.mem_cons.mp he with rfl | he
  · exact le_refl _
  · have hs := inv.len_sorted
    rw [List.map_cons, List.sorted_cons] at hs
    exact hs.1 e.2.length (List.mem_map.mpr ⟨e, he, rfl⟩)

/-- Skipping an already-visited head preserves the invariant. -/
lemma FpBfsInv.skip_head {g : Graph} {start target c : String} {p : List String}
    {q : List (String × List String)} {V : Finset String} {dv : String → ℕ}
    (inv : FpBfsInv g start target ((c, p) :: q) V dv) (hc : c ∈ V) :
    FpBfsInv g start target q V dv := by
  have hstart : start ∈ V ∧ dv start = 1 := by
    rcases inv.start_case with h | ⟨hV, _⟩
    · exact h
    · rw [hV] at hc
      exact absurd hc (Finset.not_mem_empty c)
  refine ⟨?_, ?_, ?_, inv.target_not_visited, ?_, inv.target_not_adj,
      ?_, ?_, Or.inl hstart, ?_, ?_⟩
  · exact fun e he => inv.paths e (List.mem_cons_of_mem _ he)
  · have hs := inv.len_sorted
    rw [List.map_cons, List.sorted_cons] at hs
    exact hs.2
  · exact fun e₁ h₁ e₂ h₂ => inv.two_level e₁ (List.mem_cons_of_mem _ h₁)
      e₂ (List.mem_cons_of_mem _ h₂)
  · exact fun e he => inv.target_not_queued e (List.mem_cons_of_mem _ he)
  · intro v hv n hn
    refine ⟨(inv.fringe v hv n hn).1, ?_⟩
    intro hnV
    obtain ⟨p', hp', hlen⟩ := (inv.fringe v hv n hn).2 hnV
    rcases List.mem_cons.mp hp' with heq | hp'
    · have : n = c := congrArg Prod.fst heq
      rw [this] at hnV
      exact absurd hc hnV
    · exact ⟨p', hp', hlen⟩
  · exact fun v hv e he => inv.dv_le v hv e (List.mem_cons_of_mem _ he)
  · exact fun e he => inv.entry_nodup e (List.mem_cons_of_mem _ he)
  · exact fun e he => inv.prefix_visited e (List.mem_cons_of_mem _ he)

/-- Visiting an unvisited head vertex whose neighbor list does not contain
`target` preserves the invariant: the vertex becomes visited with
`dv = |p|` and its fresh neighbors are enqueued with the extended paths. -/
lemma FpBfsInv.visit_step {g : Graph} {start target c : String} {p : List String}
    {q : List (String × List String)} {V : Finset String} {dv : String → ℕ}
    (inv : FpBfsInv g start target ((c, p) :: q) V dv) (hc : c ∉ V)
    (hT : target ∉ g.get_neighbors c) :
    FpBfsInv g start target
      (q ++ ((g.get_neighbors c).filter (· ∉ insert c V)).map
        (fun n => (n, p ++ [n])))
      (insert c V) (fun x => if x = c then p.length else dv x) := by
  have hpc : IsPath g start c p := inv.paths _ (List.mem_cons_self _ _)
  have hmin := inv.head_min
  have hct : c ≠ target := inv.target_not_queued _ (List.mem_cons_self _ _)
  have hdvle : ∀ v ∈ V, dv v ≤ p.length :=
    fun v hv => inv.dv_le v hv _ (List.mem_cons_self _ _)
  have hN : ∀ e ∈ ((g.get_neighbors c).filter (· ∉ insert c V)).map
      (fun n => (n, p ++ [n])),
      ∃ n, n ∈ g.get_neighbors c ∧ n ∉ insert c V ∧ e = (n, p ++ [n]) := by
    intro e he
    obtain ⟨n, hn, rfl⟩ := List.mem_map.mp he
    obtain ⟨hn1, hn2⟩ := List.mem_filter.mp hn
    exact ⟨n, hn1, by simpa using hn2, rfl⟩
  have hNmem : ∀ n, n ∈ g.get_neighbors c → n ∉ insert c V →
      (n, p ++ [n]) ∈ ((g.get_neighbors c).filter (· ∉ insert c V)).map
        (fun n => (n, p ++ [n])) := by
    intro n h1 h2
    exact List.mem_map.mpr ⟨n, List.mem_filter.mpr ⟨h1, by simpa using h2⟩, rfl⟩
  have hplen : ∀ e ∈ ((g.get_neighbors c).filter (· ∉ insert c V)).map
      (fun n => (n, p ++ [n])), e.2.length = p.length + 1 := by
    intro e he
    obtain ⟨n, _, _, rfl⟩ := hN e he
    simp
  have hqle : ∀ e ∈ q, e.2.length ≤ p.length + 1 :=
    fun e he => inv.two_level e (List.mem_cons_of_mem _ he) _
      (List.mem_cons_self _ _)
  have hp0 := inv.prefix_visited _ (List.mem_cons_self (c, p) q)
  obtain ⟨p₀, hp₀eq, hp₀sub⟩ := hp0
  have hpeq : p = p₀ ++ [c] := hp₀eq
  refine ⟨?_, ?_, ?_, ?_, ?_, ?_, ?_, ?_, ?_, ?_, ?_⟩
  · intro e he
    rcases List.mem_append.mp he with he | he
    · exact inv.paths e (List.mem_cons_of_mem _ he)
    · obtain ⟨n, hn1, _, rfl⟩ := hN e he
      exact hpc.append_edge hn1
  · rw [List.map_append]
    have hs := inv.len_sorted
    rw [List.map_cons, List.sorted_cons] at hs
    unfold List.Sorted at hs ⊢
    rw [List.pairwise_append]
    refine ⟨hs.2, ?_, ?_⟩
    · exact sorted_of_const (fun a ha => by
        obtain ⟨e, he, rfl⟩ := List.mem_map.mp ha
        exact hplen e he)
    · intro a ha b hb
      obtain ⟨e₁, he₁, rfl⟩ := List.mem_map.mp ha
      obtain ⟨e₂, he₂, rfl⟩ := List.mem_map.mp hb
      rw [hplen e₂ he₂]
      exact hqle e₁ he₁
  · intro e₁ h₁ e₂ h₂
    rcases List.mem_append.mp h₁ with h₁ | h₁ <;>
      rcases List.mem_append.mp h₂ with h₂ | h₂
    · exact inv.two_level e₁ (List.mem_cons_of_mem _ h₁) e₂
        (List.mem_cons_of_mem _ h₂)
    · rw [hplen e₂ h₂]
      exact le_trans (hqle e₁ h₁) (Nat.le_succ _)
    · rw [hplen e₁ h₁]
      exact Nat.succ_le_succ (hmin e₂ (List.mem_cons_of_mem _ h₂))
    · rw [hplen e₁ h₁, hplen e₂ h₂]
      exact Nat.le_succ _
  · intro h
    rcases Finset.mem_insert.mp h with rfl | h
    · exact hct rfl
    · exact inv.target_not_visited h
  · intro e he
    rcases List.mem_append.mp he with he | he
    · exact inv.target_not_queued e (List.mem_cons_of_mem _ he)
    · obtain ⟨n, hn1, _, rfl⟩ := hN e he
      intro hnt
      have hnt' : n = target := hnt
      rw [hnt'] at hn1
      exact hT hn1
  · intro v hv
    rcases Finset.mem_insert.mp hv with rfl | hv
    · exact hT
    · exact inv.target_not_adj v hv
  · intro v hv n hn
    by_cases hvc : v = c
    · -- v = c, the newly visited vertex
      subst hvc
      constructor
      · intro hnV
        simp only [if_pos rfl]
        by_cases hnc : n = v
        · simp [hnc]
        · have hnV' : n ∈ V := by
            rcases Finset.mem_insert.mp hnV with h | h
            · exact absurd h hnc
            · exact h
          simp only [if_neg hnc]
          exact le_trans (hdvle n hnV') (Nat.le_succ _)
      · intro hnV
        refine ⟨p ++ [n], List.mem_append_right _ (hNmem n hn hnV), ?_⟩
        simp [if_pos rfl]
    · -- v was already visited
      have hvV : v ∈ V := by
        rcases Finset.mem_insert.mp hv with h | h
        · exact absurd h hvc
        · exact h
      constructor
      · intro hnV
        simp only [if_neg hvc]
        by_cases hnc : n = c
        · subst hnc
          simp only [if_pos rfl]
          obtain ⟨p', hp', hlen⟩ := (inv.fringe v hvV n hn).2 hc
          exact le_trans (hmin _ hp') hlen
        · have hnV' : n ∈ V := by
            rcases Finset.mem_insert.mp hnV with h | h
            · exact absurd h hnc
            · exact h
          simp only [if_neg hnc]
          exact (inv.fringe v hvV n hn).1 hnV'
      · intro hnV
        have hnc : n ≠ c := fun h => hnV (h ▸ Finset.mem_insert_self c V)
        have hnV' : n ∉ V := fun h => hnV (Finset.mem_insert_of_mem h)
        obtain ⟨p', hp', hlen⟩ := (inv.fringe v hvV n hn).2 hnV'
        rcases List.mem_cons.mp hp' with heq | hp'
        · exact absurd (congrArg Prod.fst heq) hnc
        · refine ⟨p', List.mem_append_left _ hp', ?_⟩
          simpa [if_neg hvc] using hlen
  · intro v hv e he
    rcases Finset.mem_insert.mp hv with rfl | hv
    · simp only [if_pos rfl]
      rcases List.mem_append.mp he with he | he
      · exact hmin e (List.mem_cons_of_mem _ he)
      · rw [hplen e he]; exact Nat.le_succ _
    · have hvc : v ≠ c := fun h => hc (h ▸ hv)
      simp only [if_neg hvc]
      rcases List.mem_append.mp he with he | he
      · exact inv.dv_le v hv e (List.mem_cons_of_mem _ he)
      · rw [hplen e he]
        exact le_trans (hdvle v hv) (Nat.le_succ _)
  · left
    rcases inv.start_case with ⟨hsV, hds⟩ | ⟨hV, hq⟩
    · have hsc : start ≠ c := fun h => hc (h ▸ hsV)
      exact ⟨Finset.mem_insert_of_mem hsV, by simp [if_neg hsc, hds]⟩
    · rw [List.cons.injEq] at hq
      obtain ⟨h1, rfl⟩ := hq
      rw [Prod.mk.injEq] at h1
      obtain ⟨rfl, rfl⟩ := h1
      exact ⟨Finset.mem_insert_self _ _, by simp⟩
  · intro e he
    rcases List.mem_append.mp he with he | he
    · exact inv.entry_nodup e (List.mem_cons_of_mem _ he)
    · obtain ⟨n, hn1, hn2, rfl⟩ := hN e he
      have hnc : n ≠ c := fun h => hn2 (h ▸ Finset.mem_insert_self c V)
      have hnV : n ∉ V := fun h => hn2 (Finset.mem_insert_of_mem h)
      have hnp : n ∉ p := by
        rw [hpeq]
        intro hmem
        rcases List.mem_append.mp hmem with hmem | hmem
        · exact hnV (hp₀sub n hmem)
        · simp only [List.mem_singleton] at hmem
          exact hnc hmem
      constructor
      · rw [List.nodup_append]
        exact ⟨(inv.entry_nodup _ (List.mem_cons_self _ _)).1,
          List.nodup_singleton n,
          fun a ha hb => by
            simp only [List.mem_singleton] at hb
            exact hnp (hb ▸ ha)⟩
      · intro hmem
        rcases List.mem_append.mp hmem with hmem | hmem
        · exact (inv.entry_nodup _ (List.mem_cons_self (c, p) q)).2 hmem
        · simp only [List.mem_singleton] at hmem
          rw [hmem] at hT
          exact hT hn1
  · intro e he
    rcases List.mem_append.mp he with he | he
    · obtain ⟨p₀', heq, hsub⟩ := inv.prefix_visited e (List.mem_cons_of_mem _ he)
      exact ⟨p₀', heq, fun a ha => Finset.mem_insert_of_mem (hsub a ha)⟩
    · obtain ⟨n, _, _, rfl⟩ := hN e he
      refine ⟨p, rfl, ?_⟩
      intro a ha
      rw [hpeq] at ha
      rcases List.mem_append.mp ha with ha | ha
      · exact Finset.mem_insert_of_mem (hp₀sub a ha)
      · simp only [List.mem_singleton] at ha
        exact ha ▸ Finset.mem_insert_self c V

/-- Any recorded-edge path from `start` to `target` must cross the queue:
splitting it at its first unvisited vertex yields a queue entry for that
vertex whose stored path is no longer than the crossed prefix. -/
lemma FpBfsInv.exists_entry_of_path {g : Graph} {start target : String}
    {q : List (String × List String)} {V : Finset String} {dv : String → ℕ}
    (inv : FpBfsInv g start target q V dv) (hst : start ≠ target) :
    ∀ P, IsPath g start target P →
      ∃ P₁ x P₂ p', P = P₁ ++ x :: P₂ ∧ (x, p') ∈ q ∧
        p'.length ≤ P₁.length + 1 ∧ x ≠ target := by
  intro P hP
  obtain ⟨hPh, hPl, hPc⟩ := hP
  have htP : target ∈ P := mem_of_getLast?_eq_some hPl
  obtain ⟨P₁, x, P₂, heq, hP₁V, hxV⟩ :=
    exists_first_not_mem P ⟨target, htP, inv.target_not_visited⟩
  cases P₁ with
  | nil =>
    -- the first unvisited vertex is the very start of the path
    have hx : x = start := by
      rw [heq] at hPh
      simp only [List.nil_append, List.head?_cons, Option.some.injEq] at hPh
      exact hPh
    subst hx
    rcases inv.start_case with ⟨hsV, _⟩ | ⟨_, hq⟩
    · exact absurd hsV hxV
    · refine ⟨[], x, P₂, [x], heq, ?_, by simp, hst⟩
      rw [hq]
      exact List.mem_cons_self _ _
  | cons a t =>
    have hane : (a :: t : List String) ≠ [] := List.cons_ne_nil a t
    have ha : a = start := by
      rw [heq] at hPh
      simp only [List.cons_append, List.head?_cons, Option.some.injEq] at hPh
      exact hPh
    have hsV : start ∈ V := ha ▸ hP₁V a (List.mem_cons_self _ _)
    have hdvs : dv start = 1 := by
      rcases inv.start_case with ⟨_, h⟩ | ⟨hV, _⟩
      · exact h
      · rw [hV] at hsV
        exact absurd hsV (Finset.not_mem_empty start)
    -- decompose the chain: prefix chain, suffix chain, crossing edge
    rw [heq, List.chain'_append] at hPc
    obtain ⟨hc₁, _, hcross⟩ := hPc
    set y := (a :: t).getLast hane with hy
    have hyV : y ∈ V := hP₁V y (List.getLast_mem hane)
    have hedge : x ∈ g.get_neighbors y := by
      refine hcross y ?_ x ?_
      · rw [List.getLast?_eq_getLast_of_ne_nil hane]
        exact rfl
      · simp
    have hdvy : dv y + 1 ≤ dv start + (a :: t).length := by
      refine dv_chain (fun v hv n hn hnV => (inv.fringe v hv n hn).1 hnV)
        (a :: t) hane hc₁ hP₁V start ?_
      simp [ha]
    obtain ⟨p', hp'q, hp'len⟩ := (inv.fringe y hyV x hedge).2 hxV
    have hxt : x ≠ target := by
      intro h
      rw [h] at hedge
      exact inv.target_not_adj y hyV hedge
    refine ⟨a :: t, x, P₂, p', heq, hp'q, ?_, hxt⟩
    rw [hdvs] at hdvy
    omega

/-- While the loop is running, every recorded-edge path from `start` to
`target` is strictly longer than the path at the head of the queue. -/
lemma FpBfsInv.lower_bound {g : Graph} {start target c : String}
    {p : List String} {q : List (String × List String)} {V : Finset String}
    {dv : String → ℕ} (inv : FpBfsInv g start target ((c, p) :: q) V dv)
    (hst : start ≠ target) :
    ∀ P, IsPath g start target P → p.length + 1 ≤ P.length := by
  intro P hP
  obtain ⟨P₁, x, P₂, p', heq, hp'q, hp'len, hxt⟩ :=
    inv.exists_entry_of_path hst P hP
  have hmin : p.length ≤ p'.length := inv.head_min _ hp'q
  have hP₂ : P₂ ≠ [] := by
    intro h
    rw [h] at heq
    have h2 := hP.2.1
    rw [heq, List.getLast?_concat] at h2
    exact hxt (Option.some_inj.mp h2)
  have hP₂len : 1 ≤ P₂.length := List.length_pos.mpr hP₂
  have : P.length = P₁.length + 1 + P₂.length := by
    rw [heq]
    simp [List.length_append]
    omega
  omega

/-- When `target` is reachable from `start` the queue cannot be empty. -/
lemma FpBfsInv.queue_ne_nil {g : Graph} {start target : String}
    {q : List (String × List String)} {V : Finset String} {dv : String → ℕ}
    (inv : FpBfsInv g start target q V dv) (hst : start ≠ target)
    (hreach : Reaches g start target) : q ≠ [] := by
  obtain ⟨P, hP⟩ := reaches_iff_exists_path.mp hreach
  obtain ⟨_, _, _, p', _, hp'q, _, _⟩ := inv.exists_entry_of_path hst P hP
  intro h
  rw [h] at hp'q
  exact List.not_mem_nil _ hp'q

/-- Main correctness lemma for the `find_path_bfs` loop: from any state
satisfying the invariant, a `some` result is a duplicate-free shortest
recorded-edge path from `start` to `target`, and a `none` result means
`target` is not reachable from `start`. -/
lemma fpBfsLoop_spec {g : Graph} {start target : String}
    (hst : start ≠ target) :
    ∀ q V, (∃ dv, FpBfsInv g start target q V dv) →
      (∀ r, fpBfsLoop g target q V = some r →
        IsPath g start target r ∧ r.Nodup ∧
        ∀ P, IsPath g start target P → r.length ≤ P.length) ∧
      (fpBfsLoop g target q V = none → ¬ Reaches g start target) := by
  intro q V
  induction q, V using fpBfsLoop.induct g target with
  | case1 V =>
    rintro ⟨dv, inv⟩
    constructor
    · intro r hr
      rw [fpBfsLoop] at hr
      exact Option.noConfusion hr
    · intro _ hreach
      exact inv.queue_ne_nil hst hreach rfl
  | case2 c p q V hc ih =>
    rintro ⟨dv, inv⟩
    rw [fpBfsLoop, if_pos hc]
    exact ih ⟨dv, inv.skip_head hc⟩
  | case3 c p q V hc r h =>
    rintro ⟨dv, inv⟩
    have hres : fpBfsLoop g target ((c, p) :: q) V = some r := by
      rw [fpBfsLoop, if_neg hc, h]
    have hscan := fpScan_eq target (insert c V) p (g.get_neighbors c)
    rw [h] at hscan
    by_cases htadj : target ∈ g.get_neighbors c
    · rw [if_pos htadj] at hscan
      have hr : r = p ++ [target] := by injection hscan
      subst hr
      constructor
      · intro r' hr'
        rw [hres] at hr'
        have hr'' : p ++ [target] = r' := Option.some_inj.mp hr'
        subst hr''
        obtain ⟨hnd, hnt⟩ := inv.entry_nodup _ (List.mem_cons_self (c, p) q)
        refine ⟨(inv.paths _ (List.mem_cons_self _ _)).append_edge htadj,
          ?_, ?_⟩
        · rw [List.nodup_append]
          exact ⟨hnd, List.nodup_singleton _, fun a ha hb => by
            simp only [List.mem_singleton] at hb
            exact hnt (hb ▸ ha)⟩
        · intro P hP
          have := inv.lower_bound hst P hP
          simp only [List.length_append, List.length_singleton]
          omega
      · intro hnone
        rw [hres] at hnone
        exact Option.noConfusion hnone
    · rw [if_neg htadj] at hscan
      exact Except.noConfusion hscan
  | case4 c p q V hc adds h ih =>
    rintro ⟨dv, inv⟩
    have hscan := fpScan_eq target (insert c V) p (g.get_neighbors c)
    rw [h] at hscan
    by_cases htadj : target ∈ g.get_neighbors c
    · rw [if_pos htadj] at hscan
      exact Except.noConfusion hscan
    · rw [if_neg htadj] at hscan
      have hadds : adds = ((g.get_neighbors c).filter (· ∉ insert c V)).map
          (fun n => (n, p ++ [n])) := by injection hscan
      have hinv' : FpBfsInv g start target (q ++ adds) (insert c V)
          (fun x => if x = c then p.length else dv x) := by
        rw [hadds]
        exact inv.visit_step hc htadj
      rw [fpBfsLoop, if_neg hc, h]
      exact ih ⟨_, hinv'⟩

/-- The invariant holds for the initial state of the `find_path_bfs` loop. -/
lemma fpBfsInv_init {g : Graph} {start target : String}
    (hst : start ≠ target) :
    FpBfsInv g start target [(start, [start])] ∅ (fun _ => 0) := by
  refine ⟨?_, ?_, ?_, ?_, ?_, ?_, ?_, ?_, ?_, ?_, ?_⟩
  · intro e he
    rw [List.mem_singleton] at he
    rw [he]
    exact isPath_singleton g start
  · simp
  · intro e₁ h₁ e₂ h₂
    rw [List.mem_singleton] at h₁ h₂
    rw [h₁, h₂]
    simp
  · exact Finset.not_mem_empty target
  · intro e he
    rw [List.mem_singleton] at he
    rw [he]
    exact hst
  · intro v hv
    exact absurd hv (Finset.not_mem_empty v)
  · intro v hv
    exact absurd hv (Finset.not_mem_empty v)
  · intro v hv
    exact absurd hv (Finset.not_mem_empty v)
  · exact Or.inr ⟨rfl, rfl⟩
  · intro e he
    rw [List.mem_singleton] at he
    rw [he]
    exact ⟨List.nodup_singleton _, by simpa using Ne.symm hst⟩
  · intro e he
    rw [List.mem_singleton] at he
    rw [he]
    exact ⟨[], rfl, by simp⟩

/-- The loop invariant of `find_path_dfs`: stack entries carry genuine
duplicate-free recorded-edge paths from `start` that avoid `target` and
whose vertices, except the final entry vertex, are visited. -/
structure FpDfsInv (g : Graph) (start target : String)
    (s : List (String × List String)) (V : Finset String) : Prop where
  paths : ∀ e ∈ s, IsPath g start e.1 e.2
  entry_nodup : ∀ e ∈ s, e.2.Nodup ∧ target ∉ e.2
  prefix_visited : ∀ e ∈ s, ∃ p₀, e.2 = p₀ ++ [e.1] ∧ ∀ a ∈ p₀, a ∈ V

lemma FpDfsInv.skip_top {g : Graph} {start target c : String} {p : List String}
    {s : List (String × List String)} {V : Finset String}
    (inv : FpDfsInv g start target ((c, p) :: s) V) :
    FpDfsInv g start target s V :=
  ⟨fun e he => inv.paths e (List.mem_cons_of_mem _ he),
   fun e he => inv.entry_nodup e (List.mem_cons_of_mem _ he),
   fun e he => inv.prefix_visited e (List.mem_cons_of_mem _ he)⟩

lemma FpDfsInv.push_step {g : Graph} {start target c : String} {p : List String}
    {s : List (String × List String)} {V : Finset String}
    (inv : FpDfsInv g start target ((c, p) :: s) V)
    (hT : target ∉ g.get_neighbors c) :
    FpDfsInv g start target
      ((((g.get_neighbors c).filter (· ∉ insert c V)).map
        (fun n => (n, p ++ [n]))).reverse ++ s)
      (insert c V) := by
  have hpc : IsPath g start c p := inv.paths _ (List.mem_cons_self _ _)
  obtain ⟨hnd, hnt⟩ := inv.entry_nodup _ (List.mem_cons_self (c, p) s)
  obtain ⟨p₀, hp₀eq, hp₀sub⟩ :=
    inv.prefix_visited _ (List.mem_cons_self (c, p) s)
  have hpeq : p = p₀ ++ [c] := hp₀eq
  have hN : ∀ e, e ∈ (((g.get_neighbors c).filter (· ∉ insert c V)).map
      (fun n => (n, p ++ [n]))).reverse →
      ∃ n, n ∈ g.get_neighbors c ∧ n ∉ insert c V ∧ e = (n, p ++ [n]) := by
    intro e he
    rw [List.mem_reverse] at he
    obtain ⟨n, hn, rfl⟩ := List.mem_map.mp he
    obtain ⟨hn1, hn2⟩ := List.mem_filter.mp hn
    exact ⟨n, hn1, by simpa using hn2, rfl⟩
  refine ⟨?_, ?_, ?_⟩
  · intro e he
    rcases List.mem_append.mp he with he | he
    · obtain ⟨n, hn1, _, rfl⟩ := hN e he
      exact hpc.append_edge hn1
    · exact inv.paths e (List.mem_cons_of_mem _ he)
  · intro e he
    rcases List.mem_append.mp he with he | he
    · obtain ⟨n, hn1, hn2, rfl⟩ := hN e he
      have hnc : n ≠ c := fun h => hn2 (h ▸ Finset.mem_insert_self c V)
      have hnV : n ∉ V := fun h => hn2 (Finset.mem_insert_of_mem h)
      have hnp : n ∉ p := by
        rw [hpeq]
        intro hmem
        rcases List.mem_append.mp hmem with hmem | hmem
        · exact hnV (hp₀sub n hmem)
        · simp only [List.mem_singleton] at hmem
          exact hnc hmem
      constructor
      · rw [List.nodup_append]
        exact ⟨hnd, List.nodup_singleton n, fun a ha hb => by
          simp only [List.mem_singleton] at hb
          exact hnp (hb ▸ ha)⟩
      · intro hmem
        rcases List.mem_append.mp hmem with hmem | hmem
        · exact hnt hmem
        · simp only [List.mem_singleton] at hmem
          rw [hmem] at hT
          exact hT hn1
    · exact inv.entry_nodup e (List.mem_cons_of_mem _ he)
  · intro e he
    rcases List.mem_append.mp he with he | he
    · obtain ⟨n, _, _, rfl⟩ := hN e he
      refine ⟨p, rfl, ?_⟩
      intro a ha
      rw [hpeq] at ha
      rcases List.mem_append.mp ha with ha | ha
      · exact Finset.mem_insert_of_mem (hp₀sub a ha)
      · simp only [List.mem_singleton] at ha
        exact ha ▸ Finset.mem_insert_self c V
    · obtain ⟨p₀', heq, hsub⟩ := inv.prefix_visited e (List.mem_cons_of_mem _ he)
      exact ⟨p₀', heq, fun a ha => Finset.mem_insert_of_mem (hsub a ha)⟩

/-- A `some` result of the `find_path_dfs` loop is a duplicate-free
recorded-edge path from `start` to `target`. -/
lemma fpDfsLoop_spec {g : Graph} {start target : String} :
    ∀ s V, FpDfsInv g start target s V →
      ∀ r, fpDfsLoop g target s V = some r →
        IsPath g start target r ∧ r.Nodup := by
  intro s V
  induction s, V using fpDfsLoop.induct g target with
  | case1 V =>
    intro _ r hr
    rw [fpDfsLoop] at hr
    exact Option.noConfusion hr
  | case2 c p s V hc ih =>
    intro inv r hr
    rw [fpDfsLoop, if_pos hc] at hr
    exact ih inv.skip_top r hr
  | case3 c p s V hc r h =>
    intro inv r' hr'
    have hres : fpDfsLoop g target ((c, p) :: s) V = some r := by
      rw [fpDfsLoop, if_neg hc, h]
    rw [hres] at hr'
    have hrr : r = r' := Option.some_inj.mp hr'
    subst hrr
    have hscan := fpScan_eq target (insert c V) p (g.get_neighbors c)
    rw [h] at hscan
    by_cases htadj : target ∈ g.get_neighbors c
    · rw [if_pos htadj] at hscan
      have hr : r = p ++ [target] := by injection hscan
      subst hr
      obtain ⟨hnd, hnt⟩ := inv.entry_nodup _ (List.mem_cons_self (c, p) s)
      refine ⟨(inv.paths _ (List.mem_cons_self _ _)).append_edge htadj, ?_⟩
      rw [List.nodup_append]
      exact ⟨hnd, List.nodup_singleton _, fun a ha hb => by
        simp only [List.mem_singleton] at hb
        exact hnt (hb ▸ ha)⟩
    · rw [if_neg htadj] at hscan
      exact Except.noConfusion hscan
  | case4 c p s V hc adds h ih =>
    intro inv r hr
    have hscan := fpScan_eq target (insert c V) p (g.get_neighbors c)
    rw [h] at hscan
    by_cases htadj : target ∈ g.get_neighbors c
    · rw [if_pos htadj] at hscan
      exact Except.noConfusion hscan
    · rw [if_neg htadj] at hscan
      have hadds : adds = ((g.get_neighbors c).filter (· ∉ insert c V)).map
          (fun n => (n, p ++ [n])) := by injection hscan
      rw [fpDfsLoop, if_neg hc, h] at hr
      refine ih ?_ r hr
      rw [hadds]
      exact inv.push_step htadj

lemma fpDfsInv_init {g : Graph} {start target : String}
    (hst : start ≠ target) :
    FpDfsInv g start target [(start, [start])] ∅ := by
  refine ⟨?_, ?_, ?_⟩ <;> intro e he <;> rw [List.mem_singleton] at he <;>
    rw [he]
  · exact isPath_singleton g start
  · exact ⟨List.nodup_singleton _, by simpa using Ne.symm hst⟩
  · exact ⟨[], rfl, by simp⟩

/-! ### Connected components -/

/-- The inner loop of `connected_components_bfs` collects the same vertices
as `breadth_first_search`'s loop. -/
lemma ccBfsLoop_fst (g : Graph) :
    ∀ q V, (ccBfsLoop g q V).1 = bfsLoop g q V := by
  intro q V
  induction q, V using ccBfsLoop.induct g with
  | case1 => rw [ccBfsLoop, bfsLoop]
  | case2 c q V hc ih => rw [ccBfsLoop, if_pos hc, bfsLoop, if_pos hc]; exact ih
  | case3 c q V hc ih =>
    rw [ccBfsLoop, if_neg hc, bfsLoop, if_neg hc]
    simp only []
    rw [ih]

/-- The visited set returned by the inner component loop is the input set
plus the collected component (in the source every vertex added to `visited`
is simultaneously appended to `component`). -/
lemma ccBfsLoop_snd (g : Graph) :
    ∀ q V, (ccBfsLoop g q V).2 = V ∪ (ccBfsLoop g q V).1.toFinset := by
  intro q V
  induction q, V using ccBfsLoop.induct g with
  | case1 => rw [ccBfsLoop]; simp
  | case2 c q V hc ih => rw [ccBfsLoop, if_pos hc]; exact ih
  | case3 c q V hc ih =>
    rw [ccBfsLoop, if_neg hc]
    simp only []
    rw [ih]
    ext x
    simp only [Finset.mem_union, Finset.mem_insert, List.toFinset_cons,
      List.mem_toFinset]
    tauto

/-- On a closed graph the BFS loop only ever emits known vertices. -/
lemma bfsLoop_subset_keys {g : Graph} (hcl : g.closed) :
    ∀ q V, (∀ x ∈ q, x ∈ g.keys) → ∀ w ∈ bfsLoop g q V, w ∈ g.keys := by
  intro q V
  induction q, V using bfsLoop.induct g with
  | case1 => intro _; simp [bfsLoop]
  | case2 c q V hc ih =>
    intro hsub
    rw [bfsLoop, if_pos hc]
    exact ih (fun x hx => hsub x (List.mem_cons_of_mem c hx))
  | case3 c q V hc ih =>
    intro hsub
    rw [bfsLoop, if_neg hc]
    intro w hw
    rcases List.mem_cons.mp hw with rfl | hw
    · exact hsub w (List.mem_cons_self _ _)
    · refine ih ?_ w hw
      intro x hx
      rcases List.mem_append.mp hx with hx | hx
      · exact hsub x (List.mem_cons_of_mem c hx)
      · exact mem_keys_of_mem_get_neighbors hcl (List.mem_filter.mp hx).1

/-- The outer component loop: the concatenation of the produced components
is duplicate-free, disjoint from the initial visited set, consists of known
vertices, and absorbs every work-list vertex. -/
lemma ccLoop_spec {g : Graph} (hcl : g.closed) :
    ∀ (vs : List String) (V : Finset String), (∀ x ∈ vs, x ∈ g.keys) →
      (ccLoop g vs V).flatten.Nodup ∧
      (∀ w ∈ (ccLoop g vs V).flatten, w ∉ V ∧ w ∈ g.keys) ∧
      (∀ x ∈ vs, x ∈ V ∨ x ∈ (ccLoop g vs V).flatten) := by
  intro vs
  induction vs with
  | nil => intro V _; simp [ccLoop]
  | cons v vs ih =>
    intro V hsub
    have hvs : ∀ x ∈ vs, x ∈ g.keys :=
      fun x hx => hsub x (List.mem_cons_of_mem v hx)
    by_cases hvV : v ∈ V
    · rw [ccLoop, if_pos hvV]
      obtain ⟨h1, h2, h3⟩ := ih V hvs
      refine ⟨h1, h2, ?_⟩
      intro x hx
      rcases List.mem_cons.mp hx with rfl | hx
      · exact Or.inl hvV
      · exact h3 x hx
    · rw [ccLoop, if_neg hvV]
      have hcomp : (ccBfsLoop g [v] V).1 = bfsLoop g [v] V := ccBfsLoop_fst g _ _
      have hvcomp : v ∈ (ccBfsLoop g [v] V).1 := by
        rw [hcomp, bfsLoop, if_neg hvV]
        exact List.mem_cons_self _ _
      have hne : ¬ (ccBfsLoop g [v] V).1.isEmpty := by
        rw [List.isEmpty_iff]
        intro h
        rw [h] at hvcomp
        exact List.not_mem_nil v hvcomp
      rw [if_neg (by simpa using hne)]
      have hsnd : (ccBfsLoop g [v] V).2 =
          V ∪ (ccBfsLoop g [v] V).1.toFinset := ccBfsLoop_snd g _ _
      obtain ⟨h1, h2, h3⟩ := ih (ccBfsLoop g [v] V).2 hvs
      have hcomp_nodup : (ccBfsLoop g [v] V).1.Nodup := by
        rw [hcomp]; exact bfsLoop_nodup g _ _
      have hcomp_fresh : ∀ w ∈ (ccBfsLoop g [v] V).1, w ∉ V := by
        rw [hcomp]; exact bfsLoop_not_mem_visited g _ _
      have hcomp_keys : ∀ w ∈ (ccBfsLoop g [v] V).1, w ∈ g.keys := by
        rw [hcomp]
        exact bfsLoop_subset_keys hcl _ _
          (fun x hx => (List.mem_singleton.mp hx) ▸ hsub v (List.mem_cons_self _ _))
      refine ⟨?_, ?_, ?_⟩
      · rw [List.flatten_cons, List.nodup_append]
        refine ⟨hcomp_nodup, h1, ?_⟩
        intro a ha hb
        have := (h2 a hb).1
        rw [hsnd] at this
        exact this (Finset.mem_union_right _ (List.mem_toFinset.mpr ha))
      · intro w hw
        rw [List.flatten_cons] at hw
        rcases List.mem_append.mp hw with hw | hw
        · exact ⟨hcomp_fresh w hw, hcomp_keys w hw⟩
        · refine ⟨?_, (h2 w hw).2⟩
          have := (h2 w hw).1
          rw [hsnd] at this
          exact fun hV => this (Finset.mem_union_left _ hV)
      · intro x hx
        rw [List.flatten_cons]
        rcases List.mem_cons.mp hx with rfl | hx
        · exact Or.inr (List.mem_append_left _ hvcomp)
        · rcases h3 x hx with hV | hj
          · rw [hsnd] at hV
            rcases Finset.mem_union.mp hV with hV | hV
            · exact Or.inl hV
            · exact Or.inr (List.mem_append_left _ (List.mem_toFinset.mp hV))
          · exact Or.inr (List.mem_append_right _ hj)

/-! ### The mutation operations and the data-model invariant -/

lemma appendNbr_map_fst (adj : List (String × List String)) (u x : String) :
    (appendNbr adj u x).map Prod.fst = adj.map Prod.fst := by
  rw [appendNbr, List.map_map]
  congr 1
  funext kv
  by_cases h : kv.1 = u <;> simp [h]

lemma lookupAdj_append_empty (l : List (String × List String)) (v w : String) :
    lookupAdj (l ++ [(v, [])]) w = lookupAdj l w := by
  induction l with
  | nil =>
    rw [List.nil_append, lookupAdj, lookupAdj]
    split <;> rfl
  | cons kv rest ih =>
    obtain ⟨k, d⟩ := kv
    rw [List.cons_append, lookupAdj, lookupAdj]
    split <;> simp [ih]

lemma lookupAdj_appendNbr_same {adj : List (String × List String)}
    {u : String} (hu : u ∈ adj.map Prod.fst) (x : String) :
    lookupAdj (appendNbr adj u x) u = lookupAdj adj u ++ [x] := by
  induction adj with
  | nil => exact absurd hu (List.not_mem_nil u)
  | cons kv rest ih =>
    obtain ⟨k, d⟩ := kv
    rw [appendNbr] at ih ⊢
    rw [List.map_cons]
    by_cases hk : k = u
    · subst hk
      rw [show (if (k, d).1 = k then ((k, d).1, (k, d).2 ++ [x]) else (k, d)) =
        (k, d ++ [x]) from if_pos rfl]
      rw [lookupAdj, lookupAdj, if_pos rfl, if_pos rfl]
    · rw [List.map_cons] at hu
      have hu' : u ∈ rest.map Prod.fst := by
        rcases List.mem_cons.mp hu with h | h
        · exact absurd h.symm hk
        · exact h
      simp only [hk, ite_false, if_neg]
      rw [lookupAdj, lookupAdj, if_neg hk, if_neg hk]
      exact ih hu'

lemma lookupAdj_appendNbr_other (adj : List (String × List String))
    {u w : String} (hw : w ≠ u) (x : String) :
    lookupAdj (appendNbr adj u x) w = lookupAdj adj w := by
  induction adj with
  | nil => rfl
  | cons kv rest ih =>
    obtain ⟨k, d⟩ := kv
    rw [appendNbr] at ih ⊢
    rw [List.map_cons]
    by_cases hk : k = u
    · subst hk
      have hkw : ¬ k = w := fun h => hw h.symm
      rw [show (if (k, d).1 = k then ((k, d).1, (k, d).2 ++ [x]) else (k, d)) =
        (k, d ++ [x]) from if_pos rfl]
      rw [lookupAdj, lookupAdj, if_neg hkw, if_neg hkw]
      exact ih
    · by_cases hkw : k = w
      · simp only [hk, ite_false, if_neg]
        rw [lookupAdj, lookupAdj, if_pos hkw, if_pos hkw]
      · simp only [hk, ite_false, if_neg]
        rw [lookupAdj, lookupAdj, if_neg hkw, if_neg hkw]
        exact ih

/-- Looking anything up after the two ensure-the-key steps of `add_edge`
gives the same neighbor list as in the original mapping (a key added by the
ensure steps carries the empty list, which is also the default). -/
lemma lookupAdj_ensure (g : Graph) (u v w : String) :
    lookupAdj ((if v ∈ (if u ∈ g.keys then g.adj else
        g.adj ++ [(u, [])]).map Prod.fst then
        (if u ∈ g.keys then g.adj else g.adj ++ [(u, [])]) else
        (if u ∈ g.keys then g.adj else g.adj ++ [(u, [])]) ++ [(v, [])])) w =
      lookupAdj g.adj w := by
  by_cases hu : u ∈ g.keys
  · rw [if_pos hu]
    by_cases hv : v ∈ g.adj.map Prod.fst
    · rw [if_pos hv]
    · rw [if_neg hv]
      exact lookupAdj_append_empty g.adj v w
  · rw [if_neg hu]
    by_cases hv : v ∈ (g.adj ++ [(u, [])]).map Prod.fst
    · rw [if_pos hv]
      exact lookupAdj_append_empty g.adj u w
    · rw [if_neg hv, lookupAdj_append_empty]
      exact lookupAdj_append_empty g.adj u w

lemma mem_keys_ensure_left (g : Graph) (u v : String) :
    u ∈ ((if v ∈ (if u ∈ g.keys then g.adj else
        g.adj ++ [(u, [])]).map Prod.fst then
        (if u ∈ g.keys then g.adj else g.adj ++ [(u, [])]) else
        (if u ∈ g.keys then g.adj else g.adj ++ [(u, [])]) ++ [(v, [])])).map
        Prod.fst := by
  by_cases hu : u ∈ g.keys
  · rw [if_pos hu]
    have h1 : u ∈ g.adj.map Prod.fst := hu
    by_cases hv : v ∈ g.adj.map Prod.fst
    · rw [if_pos hv]; exact h1
    · rw [if_neg hv, List.map_append]
      exact List.mem_append_left _ h1
  · rw [if_neg hu]
    have h1 : u ∈ (g.adj ++ [(u, [])]).map Prod.fst := by
      rw [List.map_append]
      exact List.mem_append_right _ (by simp)
    by_cases hv : v ∈ (g.adj ++ [(u, [])]).map Prod.fst
    · rw [if_pos hv]; exact h1
    · rw [if_neg hv, List.map_append]
      exact List.mem_append_left _ h1

lemma mem_keys_ensure_right (g : Graph) (u v : String) :
    v ∈ ((if v ∈ (if u ∈ g.keys then g.adj else
        g.adj ++ [(u, [])]).map Prod.fst then
        (if u ∈ g.keys then g.adj else g.adj ++ [(u, [])]) else
        (if u ∈ g.keys then g.adj else g.adj ++ [(u, [])]) ++ [(v, [])])).map
        Prod.fst := by
  by_cases hu : u ∈ g.keys
  · rw [if_pos hu]
    by_cases hv : v ∈ g.adj.map Prod.fst
    · rw [if_pos hv]; exact hv
    · rw [if_neg hv, List.map_append]
      exact List.mem_append_right _ (by simp)
  · rw [if_neg hu]
    by_cases hv : v ∈ (g.adj ++ [(u, [])]).map Prod.fst
    · rw [if_pos hv]; exact hv
    · rw [if_neg hv, List.map_append]
      exact List.mem_append_right _ (by simp)

lemma closedAdj_extend {adj : List (String × List String)}
    (h : ∀ kv ∈ adj, ∀ n ∈ kv.2, n ∈ adj.map Prod.fst) (v : String) :
    ∀ kv ∈ adj ++ [(v, [])], ∀ n ∈ kv.2,
      n ∈ (adj ++ [(v, [])]).map Prod.fst := by
  intro kv hkv n hn
  rw [List.map_append]
  rcases List.mem_append.mp hkv with hkv | hkv
  · exact List.mem_append_left _ (h kv hkv n hn)
  · simp only [List.mem_singleton] at hkv
    rw [hkv] at hn
    exact absurd hn (List.not_mem_nil n)

lemma closedAdj_appendNbr {adj : List (String × List String)} {x : String}
    (h : ∀ kv ∈ adj, ∀ n ∈ kv.2, n ∈ adj.map Prod.fst)
    (hx : x ∈ adj.map Prod.fst) (u : String) :
    ∀ kv ∈ appendNbr adj u x, ∀ n ∈ kv.2,
      n ∈ (appendNbr adj u x).map Prod.fst := by
  intro kv hkv n hn
  rw [appendNbr_map_fst]
  rw [appendNbr] at hkv
  obtain ⟨kv₀, hkv₀, rfl⟩ := List.mem_map.mp hkv
  by_cases hk : kv₀.1 = u
  · rw [if_pos hk] at hn
    rcases List.mem_append.mp hn with hn | hn
    · exact h kv₀ hkv₀ n hn
    · simp only [List.mem_singleton] at hn
      exact hn ▸ hx
  · rw [if_neg hk] at hn
    exact h kv₀ hkv₀ n hn

lemma closedAdj_ensure {g : Graph} (hcl : g.closed) (u v : String) :
    ∀ kv ∈ (if v ∈ (if u ∈ g.keys then g.adj else
        g.adj ++ [(u, [])]).map Prod.fst then
        (if u ∈ g.keys then g.adj else g.adj ++ [(u, [])]) else
        (if u ∈ g.keys then g.adj else g.adj ++ [(u, [])]) ++ [(v, [])]),
      ∀ n ∈ kv.2,
      n ∈ ((if v ∈ (if u ∈ g.keys then g.adj else
        g.adj ++ [(u, [])]).map Prod.fst then
        (if u ∈ g.keys then g.adj else g.adj ++ [(u, [])]) else
        (if u ∈ g.keys then g.adj else g.adj ++ [(u, [])]) ++ [(v, [])])).map
        Prod.fst := by
  have hbase : ∀ kv ∈ g.adj, ∀ n ∈ kv.2, n ∈ g.adj.map Prod.fst := hcl
  by_cases hu : u ∈ g.keys
  · rw [if_pos hu]
    by_cases hv : v ∈ g.adj.map Prod.fst
    · rw [if_pos hv]; exact hbase
    · rw [if_neg hv]; exact closedAdj_extend hbase v
  · rw [if_neg hu]
    by_cases hv : v ∈ (g.adj ++ [(u, [])]).map Prod.fst
    · rw [if_pos hv]; exact closedAdj_extend hbase u
    · rw [if_neg hv]; exact closedAdj_extend (closedAdj_extend hbase u) v

lemma closed_empty (d : Bool) : closed ⟨d, []⟩ := by
  intro kv hkv
  exact absurd hkv (List.not_mem_nil kv)

lemma closed_add_vertex {g : Graph} (hcl : g.closed) (v : String) :
    (g.add_vertex v).closed := by
  rw [add_vertex]
  by_cases hv : v ∈ g.keys
  · rw [if_pos hv]; exact hcl
  · rw [if_neg hv]
    exact closedAdj_extend hcl v

lemma closed_add_edge {g : Graph} (hcl : g.closed) (u v : String) :
    (g.add_edge u v).closed := by
  simp only [add_edge]
  have hens := closedAdj_ensure hcl u v
  have hu := mem_keys_ensure_left g u v
  have hv := mem_keys_ensure_right g u v
  have ha3 := closedAdj_appendNbr hens hv u
  by_cases hd : g.directed = true
  · rw [if_pos hd]
    exact ha3
  · rw [if_neg hd]
    refine closedAdj_appendNbr ha3 ?_ v
    rw [appendNbr_map_fst]
    exact hu

/-- The neighbor-list effect of `add_edge` on an undirected graph, for two
distinct endpoints: `v` is appended to `u`'s list and `u` to `v`'s list. -/
lemma add_edge_neighbors_undirected {g : Graph} (hd : g.directed = false)
    {u v : String} (huv : u ≠ v) :
    (g.add_edge u v).get_neighbors u = g.get_neighbors u ++ [v] ∧
    (g.add_edge u v).get_neighbors v = g.get_neighbors v ++ [u] := by
  simp only [add_edge, get_neighbors, hd, Bool.false_eq_true, if_false]
  constructor
  · rw [lookupAdj_appendNbr_other _ huv, lookupAdj_appendNbr_same
      (mem_keys_ensure_left g u v), lookupAdj_ensure]
  · rw [lookupAdj_appendNbr_same (by
      rw [appendNbr_map_fst]
      exact mem_keys_ensure_right g u v),
      lookupAdj_appendNbr_other _ (Ne.symm huv), lookupAdj_ensure]

/-- The neighbor-list effect of an undirected self-loop: the vertex's own
identifier is appended twice in the same call. -/
lemma add_edge_neighbors_self_loop {g : Graph} (hd : g.directed = false)
    (u : String) :
    (g.add_edge u u).get_neighbors u = g.get_neighbors u ++ [u, u] := by
  simp only [add_edge, get_neighbors, hd, Bool.false_eq_true, if_false]
  rw [lookupAdj_appendNbr_same (by
      rw [appendNbr_map_fst]
      exact mem_keys_ensure_left g u u),
    lookupAdj_appendNbr_same (mem_keys_ensure_left g u u), lookupAdj_ensure,
    List.append_assoc]
  rfl

/-- The neighbor-list effect of `add_edge` on a directed graph: only `u`'s
list receives `v`; any other vertex's list is untouched. -/
lemma add_edge_neighbors_directed {g : Graph} (hd : g.directed = true)
    (u v : String) :
    (g.add_edge u v).get_neighbors u = g.get_neighbors u ++ [v] ∧
    (∀ w, w ≠ u → (g.add_edge u v).get_neighbors w = g.get_neighbors w) := by
  simp only [add_edge, get_neighbors, hd, if_true]
  constructor
  · rw [lookupAdj_appendNbr_same (mem_keys_ensure_left g u v), lookupAdj_ensure]
  · intro w hw
    rw [lookupAdj_appendNbr_other _ hw, lookupAdj_ensure]

/-! ### State-passing versions of the query operations

The adjacency mapping is a `defaultdict(list)`, so the subscript accesses
`self.adjacency_list[current]` inside the traversal loops are the only
places where a query operation could mutate the graph: subscripting a
missing key silently inserts it with an empty list.  The versions below
thread the graph through every such access; the purity theorem shows that
on a closed graph (the data-model invariant) the final graph equals the
initial one and the result equals the pure function above. -/

/-- `self.adjacency_list[v]` on the `defaultdict`: return the stored list
for a present key, otherwise insert the key with `[]` and return `[]`. -/
def ddGet (g : Graph) (v : String) : List String × Graph :=
  if v ∈ g.keys then (lookupAdj g.adj v, g)
  else ([], ⟨g.directed, g.adj ++ [(v, [])]⟩)

lemma union_singleton_sdiff_insert {K V : Finset String} (c : String) :
    (K ∪ {c}) \ insert c V = K \ insert c V := by
  ext x
  simp only [Finset.mem_sdiff, Finset.mem_union, Finset.mem_singleton,
    Finset.mem_insert]
  constructor
  · rintro ⟨h1 | h1, h2⟩
    · exact ⟨h1, h2⟩
    · exact absurd (Or.inl h1) h2
  · rintro ⟨h1, h2⟩
    exact ⟨Or.inl h1, h2⟩

lemma keysF_extend (g : Graph) (c : String) :
    (Graph.mk g.directed (g.adj ++ [(c, [])])).keysF = g.keysF ∪ {c} := by
  simp [keysF, keys]

/-- `breadth_first_search`'s loop with the `defaultdict` access made
explicit. -/
def bfsLoopS : Graph → List String → Finset String → List String × Graph
  | g, [], _ => ([], g)
  | g, c :: q, V =>
    if c ∈ V then bfsLoopS g q V
    else
      let res := ddGet g c
      let r := bfsLoopS res.2 (q ++ res.1.filter (· ∉ insert c V)) (insert c V)
      (c :: r.1, r.2)
termination_by g q V => ((g.keysF \ V).card, q.length)
decreasing_by
  · exact Prod.Lex.right _ (Nat.lt_succ_self _)
  · by_cases hck : c ∈ g.keys
    · have h2 : (ddGet g c).2 = g := by rw [ddGet, if_pos hck]
      rw [h2]
      exact Prod.Lex.left _ _ (card_sdiff_lt_of_insert_subset
        (List.mem_toFinset.mpr hck) (by assumption) (by rfl))
    · have h1 : (ddGet g c).1 = [] := by rw [ddGet, if_neg hck]
      have h2 : (ddGet g c).2 = ⟨g.directed, g.adj ++ [(c, [])]⟩ := by
        rw [ddGet, if_neg hck]
      rw [h1, h2, keysF_extend, union_singleton_sdiff_insert,
        show g.keysF \ insert c V = g.keysF \ V from
          sdiff_insert_of_not_mem (fun h => hck (List.mem_toFinset.mp h))]
      apply Prod.Lex.right
      simp [Nat.lt_succ_self]

/-- `breadth_first_search`, state-passing. -/
def breadth_first_searchS (g : Graph) (start : String) : List String × Graph :=
  if start ∉ g.keys then ([], g) else bfsLoopS g [start] ∅

/-- `depth_first_search`'s loop with the `defaultdict` access made
explicit. -/
def dfsLoopS : Graph → List String → Finset String → List String × Graph
  | g, [], _ => ([], g)
  | g, c :: s, V =>
    if c ∈ V then dfsLoopS g s V
    else
      let res := ddGet g c
      let r := dfsLoopS res.2
        ((res.1.reverse.filter (· ∉ insert c V)).reverse ++ s) (insert c V)
      (c :: r.1, r.2)
termination_by g s V => ((g.keysF \ V).card, s.length)
decreasing_by
  · exact Prod.Lex.right _ (Nat.lt_succ_self _)
  · by_cases hck : c ∈ g.keys
    · have h2 : (ddGet g c).2 = g := by rw [ddGet, if_pos hck]
      rw [h2]
      exact Prod.Lex.left _ _ (card_sdiff_lt_of_insert_subset
        (List.mem_toFinset.mpr hck) (by assumption) (by rfl))
    · have h1 : (ddGet g c).1 = [] := by rw [ddGet, if_neg hck]
      have h2 : (ddGet g c).2 = ⟨g.directed, g.adj ++ [(c, [])]⟩ := by
        rw [ddGet, if_neg hck]
      rw [h1, h2, keysF_extend, union_singleton_sdiff_insert,
        show g.keysF \ insert c V = g.keysF \ V from
          sdiff_insert_of_not_mem (fun h => hck (List.mem_toFinset.mp h))]
      apply Prod.Lex.right
      simp [Nat.lt_succ_self]

/-- `depth_first_search`, state-passing. -/
def depth_first_searchS (g : Graph) (start : String) : List String × Graph :=
  if start ∉ g.keys then ([], g) else dfsLoopS g [start] ∅

/-- `dfs_recursive`, state-passing.  The only subscript access in
`dfs_recursive` is `self.adjacency_list[start]`, which is reached only
after the `start not in self.adjacency_list` early return, so it can never
insert a key: the function performs no mutation on any graph, and its
state-passing form returns the graph unchanged by construction. -/
def dfs_recursiveS (g : Graph) (start : String) : List String × Graph :=
  (dfsL g [start] ∅, g)

/-- `find_path_bfs`'s loop with the `defaultdict` access made explicit. -/
def fpBfsLoopS (target : String) :
    Graph → List (String × List String) → Finset String →
      Option (List String) × Graph
  | g, [], _ => (none, g)
  | g, (c, p) :: q, V =>
    if c ∈ V then fpBfsLoopS target g q V
    else
      let res := ddGet g c
      match h : fpScan target (insert c V) p res.1 with
      | .error r => (some r, res.2)
      | .ok adds => fpBfsLoopS target res.2 (q ++ adds) (insert c V)
termination_by g q V => ((g.keysF \ V).card, q.length)
decreasing_by
  · exact Prod.Lex.right _ (Nat.lt_succ_self _)
  · by_cases hck : c ∈ g.keys
    · have h2 : (ddGet g c).2 = g := by rw [ddGet, if_pos hck]
      rw [h2]
      exact Prod.Lex.left _ _ (card_sdiff_lt_of_insert_subset
        (List.mem_toFinset.mpr hck) (by assumption) (by rfl))
    · have h1 : (ddGet g c).1 = [] := by rw [ddGet, if_neg hck]
      have h2 : (ddGet g c).2 = ⟨g.directed, g.adj ++ [(c, [])]⟩ := by
        rw [ddGet, if_neg hck]
      rw [h1] at h
      simp [fpScan] at h
      rw [h2, keysF_extend, union_singleton_sdiff_insert,
        show g.keysF \ insert c V = g.keysF \ V from
          sdiff_insert_of_not_mem (fun hx => hck (List.mem_toFinset.mp hx))]
      apply Prod.Lex.right
      simp [h, Nat.lt_succ_self]

/-- `find_path_bfs`, state-passing. -/
def find_path_bfsS (g : Graph) (start target : String) :
    Option (List String) × Graph :=
  if start ∉ g.keys ∨ target ∉ g.keys then (none, g)
  else if start = target then (some [start], g)
  else fpBfsLoopS target g [(start, [start])] ∅

/-- `find_path_dfs`'s loop with the `defaultdict` access made explicit. -/
def fpDfsLoopS (target : String) :
    Graph → List (String × List String) → Finset String →
      Option (List String) × Graph
  | g, [], _ => (none, g)
  | g, (c, p) :: s, V =>
    if c ∈ V then fpDfsLoopS target g s V
    else
      let res := ddGet g c
      match h : fpScan target (insert c V) p res.1 with
      | .error r => (some r, res.2)
      | .ok adds => fpDfsLoopS target res.2 (adds.reverse ++ s) (insert c V)
termination_by g s V => ((g.keysF \ V).card, s.length)
decreasing_by
  · exact Prod.Lex.right _ (Nat.lt_succ_self _)
  · by_cases hck : c ∈ g.keys
    · have h2 : (ddGet g c).2 = g := by rw [ddGet, if_pos hck]
      rw [h2]
      exact Prod.Lex.left _ _ (card_sdiff_lt_of_insert_subset
        (List.mem_toFinset.mpr hck) (by assumption) (by rfl))
    · have h1 : (ddGet g c).1 = [] := by rw [ddGet, if_neg hck]
      have h2 : (ddGet g c).2 = ⟨g.directed, g.adj ++ [(c, [])]⟩ := by
        rw [ddGet, if_neg hck]
      rw [h1] at h
      simp [fpScan] at h
      rw [h2, keysF_extend, union_singleton_sdiff_insert,
        show g.keysF \ insert c V = g.keysF \ V from
          sdiff_insert_of_not_mem (fun hx => hck (List.mem_toFinset.mp hx))]
      apply Prod.Lex.right
      simp [h, Nat.lt_succ_self]

/-- `find_path_dfs`, state-passing. -/
def find_path_dfsS (g : Graph) (start target : String) :
    Option (List String) × Graph :=
  if start ∉ g.keys ∨ target ∉ g.keys then (none, g)
  else if start = target then (some [start], g)
  else fpDfsLoopS target g [(start, [start])] ∅

/-- The inner loop of `connected_components_bfs`, state-passing. -/
def ccBfsLoopS : Graph → List String → Finset String →
    (List String × Finset String) × Graph
  | g, [], V => (([], V), g)
  | g, c :: q, V =>
    if c ∈ V then ccBfsLoopS g q V
    else
      let res := ddGet g c
      let r := ccBfsLoopS res.2 (q ++ res.1.filter (· ∉ insert c V)) (insert c V)
      ((c :: r.1.1, r.1.2), r.2)
termination_by g q V => ((g.keysF \ V).card, q.length)
decreasing_by
  · exact Prod.Lex.right _ (Nat.lt_succ_self _)
  · by_cases hck : c ∈ g.keys
    · have h2 : (ddGet g c).2 = g := by rw [ddGet, if_pos hck]
      rw [h2]
      exact Prod.Lex.left _ _ (card_sdiff_lt_of_insert_subset
        (List.mem_toFinset.mpr hck) (by assumption) (by rfl))
    · have h1 : (ddGet g c).1 = [] := by rw [ddGet, if_neg hck]
      have h2 : (ddGet g c).2 = ⟨g.directed, g.adj ++ [(c, [])]⟩ := by
        rw [ddGet, if_neg hck]
      rw [h1, h2, keysF_extend, union_singleton_sdiff_insert,
        show g.keysF \ insert c V = g.keysF \ V from
          sdiff_insert_of_not_mem (fun h => hck (List.mem_toFinset.mp h))]
      apply Prod.Lex.right
      simp [Nat.lt_succ_self]

/-- The outer loop of `connected_components_bfs`, state-passing.  The
source iterates over the dictionary itself; on a closed graph the
dictionary is never modified during the iteration, so iterating over the
initial key list is exact (a mutation during iteration would raise a
`RuntimeError` in Python). -/
def ccLoopS : Graph → List String → Finset String →
    List (List String) × Graph
  | g, [], _ => ([], g)
  | g, v :: vs, V =>
    if v ∈ V then ccLoopS g vs V
    else
      let r := ccBfsLoopS g [v] V
      let rest := ccLoopS r.2 vs r.1.2
      (if r.1.1.isEmpty then rest.1 else r.1.1 :: rest.1, rest.2)

/-- `connected_components_bfs`, state-passing. -/
def connected_components_bfsS (g : Graph) : List (List String) × Graph :=
  ccLoopS g g.keys ∅

/-- `is_connected`, state-passing; the key count is read after the BFS
call, as in the source. -/
def is_connectedS (g : Graph) : Bool × Graph :=
  match g.adj with
  | [] => (true, g)
  | (k, _) :: _ =>
    let r := breadth_first_searchS g k
    ((r.1.toFinset.card == r.2.adj.length), r.2)

/-- `get_vertices`, state-passing: `list(self.adjacency_list.keys())`
performs no subscript access and cannot mutate. -/
def get_verticesS (g : Graph) : List String × Graph := (g.keys, g)

/-- `get_neighbors`, state-passing: `self.adjacency_list.get(vertex, [])`
performs no subscript access and cannot mutate. -/
def get_neighborsS (g : Graph) (v : String) : List String × Graph :=
  (lookupAdj g.adj v, g)

lemma get_neighbors_def (g : Graph) (v : String) :
    g.get_neighbors v = lookupAdj g.adj v := rfl

lemma bfsLoopS_eq :
    ∀ (g : Graph) (q : List String) (V : Finset String), g.closed →
      (∀ x ∈ q, x ∈ g.keys) → bfsLoopS g q V = (bfsLoop g q V, g) := by
  intro g q V
  induction g, q, V using bfsLoopS.induct with
  | case1 g V => intro _ _; rw [bfsLoopS, bfsLoop]
  | case2 g c q V hc ih =>
    intro hcl hsub
    rw [bfsLoopS, if_pos hc, bfsLoop, if_pos hc]
    exact ih hcl (fun x hx => hsub x (List.mem_cons_of_mem c hx))
  | case3 g c q V hc res ih =>
    intro hcl hsub
    have hck : c ∈ g.keys := hsub c (List.mem_cons_self c q)
    have hres : res = (lookupAdj g.adj c, g) := by
      show ddGet g c = _
      rw [ddGet, if_pos hck]
    simp only [hres, ← get_neighbors_def] at ih
    rw [bfsLoopS, if_neg hc]
    simp only [ddGet, if_pos hck, ← get_neighbors_def]
    rw [ih hcl (by
      intro x hx
      rcases List.mem_append.mp hx with hx | hx
      · exact hsub x (List.mem_cons_of_mem c hx)
      · exact mem_keys_of_mem_get_neighbors hcl (List.mem_filter.mp hx).1)]
    rw [bfsLoop, if_neg hc]

lemma dfsLoopS_eq :
    ∀ (g : Graph) (s : List String) (V : Finset String), g.closed →
      (∀ x ∈ s, x ∈ g.keys) → dfsLoopS g s V = (dfsLoop g s V, g) := by
  intro g s V
  induction g, s, V using dfsLoopS.induct with
  | case1 g V => intro _ _; rw [dfsLoopS, dfsLoop]
  | case2 g c s V hc ih =>
    intro hcl hsub
    rw [dfsLoopS, if_pos hc, dfsLoop, if_pos hc]
    exact ih hcl (fun x hx => hsub x (List.mem_cons_of_mem c hx))
  | case3 g c s V hc res ih =>
    intro hcl hsub
    have hck : c ∈ g.keys := hsub c (List.mem_cons_self c s)
    have hres : res = (lookupAdj g.adj c, g) := by
      show ddGet g c = _
      rw [ddGet, if_pos hck]
    simp only [hres, ← get_neighbors_def] at ih
    rw [dfsLoopS, if_neg hc]
    simp only [ddGet, if_pos hck, ← get_neighbors_def]
    rw [ih hcl (by
      intro x hx
      rcases List.mem_append.mp hx with hx | hx
      · rw [List.mem_reverse] at hx
        exact mem_keys_of_mem_get_neighbors hcl
          (List.mem_reverse.mp (List.mem_filter.mp hx).1)
      · exact hsub x (List.mem_cons_of_mem c hx))]
    rw [dfsLoop, if_neg hc]

lemma fpBfsLoopS_eq (target : String) :
    ∀ (g : Graph) (q : List (String × List String)) (V : Finset String),
      g.closed → (∀ e ∈ q, e.1 ∈ g.keys) →
      fpBfsLoopS target g q V = (fpBfsLoop g target q V, g) := by
  intro g q V
  induction g, q, V using fpBfsLoopS.induct target with
  | case1 g V => intro _ _; rw [fpBfsLoopS, fpBfsLoop]
  | case2 g c p q V hc ih =>
    intro hcl hsub
    rw [fpBfsLoopS, if_pos hc, fpBfsLoop, if_pos hc]
    exact ih hcl (fun e he => hsub e (List.mem_cons_of_mem _ he))
  | case3 g c p q V hc res r h =>
    intro hcl hsub
    have hck : c ∈ g.keys := hsub (c, p) (List.mem_cons_self _ _)
    have hres1 : (ddGet g c).1 = g.get_neighbors c := by
      rw [ddGet, if_pos hck]
      rfl
    have hres2 : (ddGet g c).2 = g := by
      rw [ddGet, if_pos hck]
    have h' : fpScan target (insert c V) p (g.get_neighbors c) =
        Except.error r := by
      rw [← hres1]
      exact h
    rw [fpBfsLoopS, if_neg hc]
    simp only []
    rw [hres1, hres2, h', fpBfsLoop, if_neg hc, h']
  | case4 g c p q V hc res adds h ih =>
    intro hcl hsub
    have hck : c ∈ g.keys := hsub (c, p) (List.mem_cons_self _ _)
    have hres1 : (ddGet g c).1 = g.get_neighbors c := by
      rw [ddGet, if_pos hck]
      rfl
    have hres2 : (ddGet g c).2 = g := by
      rw [ddGet, if_pos hck]
    have h' : fpScan target (insert c V) p (g.get_neighbors c) =
        Except.ok adds := by
      rw [← hres1]
      exact h
    have hres2' : res.2 = g := hres2
    rw [hres2'] at ih
    have hsub' : ∀ e ∈ q ++ adds, e.1 ∈ g.keys := by
      have hscan := fpScan_eq target (insert c V) p (g.get_neighbors c)
      rw [h'] at hscan
      by_cases htadj : target ∈ g.get_neighbors c
      · rw [if_pos htadj] at hscan
        exact absurd hscan (fun hx => Except.noConfusion hx)
      · rw [if_neg htadj] at hscan
        have hadds : adds = ((g.get_neighbors c).filter
            (· ∉ insert c V)).map (fun n => (n, p ++ [n])) := by
          injection hscan
        intro e he
        rcases List.mem_append.mp he with he | he
        · exact hsub e (List.mem_cons_of_mem _ he)
        · rw [hadds] at he
          obtain ⟨n, hn, rfl⟩ := List.mem_map.mp he
          exact mem_keys_of_mem_get_neighbors hcl (List.mem_filter.mp hn).1
    rw [fpBfsLoopS, if_neg hc]
    simp only []
    rw [hres1, hres2, h']
    simp only []
    rw [ih hcl hsub', fpBfsLoop, if_neg hc, h']

lemma fpDfsLoopS_eq (target : String) :
    ∀ (g : Graph) (s : List (String × List String)) (V : Finset String),
      g.closed → (∀ e ∈ s, e.1 ∈ g.keys) →
      fpDfsLoopS target g s V = (fpDfsLoop g target s V, g) := by
  intro g s V
  induction g, s, V using fpDfsLoopS.induct target with
  | case1 g V => intro _ _; rw [fpDfsLoopS, fpDfsLoop]
  | case2 g c p s V hc ih =>
    intro hcl hsub
    rw [fpDfsLoopS, if_pos hc, fpDfsLoop, if_pos hc]
    exact ih hcl (fun e he => hsub e (List.mem_cons_of_mem _ he))
  | case3 g c p s V hc res r h =>
    intro hcl hsub
    have hck : c ∈ g.keys := hsub (c, p) (List.mem_cons_self _ _)
    have hres1 : (ddGet g c).1 = g.get_neighbors c := by
      rw [ddGet, if_pos hck]
      rfl
    have hres2 : (ddGet g c).2 = g := by
      rw [ddGet, if_pos hck]
    have h' : fpScan target (insert c V) p (g.get_neighbors c) =
        Except.error r := by
      rw [← hres1]
      exact h
    rw [fpDfsLoopS, if_neg hc]
    simp only []
    rw [hres1, hres2, h', fpDfsLoop, if_neg hc, h']
  | case4 g c p s V hc res adds h ih =>
    intro hcl hsub
    have hck : c ∈ g.keys := hsub (c, p) (List.mem_cons_self _ _)
    have hres1 : (ddGet g c).1 = g.get_neighbors c := by
      rw [ddGet, if_pos hck]
      rfl
    have hres2 : (ddGet g c).2 = g := by
      rw [ddGet, if_pos hck]
    have h' : fpScan target (insert c V) p (g.get_neighbors c) =
        Except.ok adds := by
      rw [← hres1]
      exact h
    have hres2' : res.2 = g := hres2
    rw [hres2'] at ih
    have hsub' : ∀ e ∈ adds.reverse ++ s, e.1 ∈ g.keys := by
      have hscan := fpScan_eq target (insert c V) p (g.get_neighbors c)
      rw [h'] at hscan
      by_cases htadj : target ∈ g.get_neighbors c
      · rw [if_pos htadj] at hscan
        exact absurd hscan (fun hx => Except.noConfusion hx)
      · rw [if_neg htadj] at hscan
        have hadds : adds = ((g.get_neighbors c).filter
            (· ∉ insert c V)).map (fun n => (n, p ++ [n])) := by
          injection hscan
        intro e he
        rcases List.mem_append.mp he with he | he
        · rw [List.mem_reverse, hadds] at he
          obtain ⟨n, hn, rfl⟩ := List.mem_map.mp he
          exact mem_keys_of_mem_get_neighbors hcl (List.mem_filter.mp hn).1
        · exact hsub e (List.mem_cons_of_mem _ he)
    rw [fpDfsLoopS, if_neg hc]
    simp only []
    rw [hres1, hres2, h']
    simp only []
    rw [ih hcl hsub', fpDfsLoop, if_neg hc, h']

lemma ccBfsLoopS_eq :
    ∀ (g : Graph) (q : List String) (V : Finset String), g.closed →
      (∀ x ∈ q, x ∈ g.keys) → ccBfsLoopS g q V = (ccBfsLoop g q V, g) := by
  intro g q V
  induction g, q, V using ccBfsLoopS.induct with
  | case1 g V => intro _ _; rw [ccBfsLoopS, ccBfsLoop]
  | case2 g c q V hc ih =>
    intro hcl hsub
    rw [ccBfsLoopS, if_pos hc, ccBfsLoop, if_pos hc]
    exact ih hcl (fun x hx => hsub x (List.mem_cons_of_mem c hx))
  | case3 g c q V hc res ih =>
    intro hcl hsub
    have hck : c ∈ g.keys := hsub c (List.mem_cons_self c q)
    have hres : res = (lookupAdj g.adj c, g) := by
      show ddGet g c = _
      rw [ddGet, if_pos hck]
    simp only [hres, ← get_neighbors_def] at ih
    rw [ccBfsLoopS, if_neg hc]
    simp only [ddGet, if_pos hck, ← get_neighbors_def]
    rw [ih hcl (by
      intro x hx
      rcases List.mem_append.mp hx with hx | hx
      · exact hsub x (List.mem_cons_of_mem c hx)
      · exact mem_keys_of_mem_get_neighbors hcl (List.mem_filter.mp hx).1)]
    rw [ccBfsLoop, if_neg hc]

lemma ccLoopS_eq {g : Graph} (hcl : g.closed) :
    ∀ (vs : List String) (V : Finset String), (∀ x ∈ vs, x ∈ g.keys) →
      ccLoopS g vs V = (ccLoop g vs V, g) := by
  intro vs
  induction vs with
  | nil => intro V _; rfl
  | cons v vs ih =>
    intro V hsub
    have hvs : ∀ x ∈ vs, x ∈ g.keys :=
      fun x hx => hsub x (List.mem_cons_of_mem v hx)
    by_cases hvV : v ∈ V
    · rw [ccLoopS, if_pos hvV, ccLoop, if_pos hvV]
      exact ih V hvs
    · rw [ccLoopS, if_neg hvV, ccLoop, if_neg hvV]
      simp only [ccBfsLoopS_eq g [v] V hcl
        (fun x hx => (List.mem_singleton.mp hx) ▸ hsub v (List.mem_cons_self _ _)),
        ih _ hvs]

/-! ### The claims -/

/-- C1: for `start` and `target` both keys of the adjacency mapping, a path
returned by `find_path_bfs` is a recorded-edge path from `start` to `target`
of minimum length among all such paths (minimum vertex count, equivalently
minimum edge count, both being nonempty lists), and `None` is returned
exactly when `target` is not reachable from `start`. -/
theorem find_path_bfs_shortest {g : Graph} {start target : String}
    (hs : start ∈ g.keys) (ht : target ∈ g.keys) :
    (∀ p, g.find_path_bfs start target = some p →
      IsPath g start target p ∧
      ∀ P, IsPath g start target P → p.length ≤ P.length) ∧
    (g.find_path_bfs start target = none ↔ ¬ Reaches g start target) := by
  rw [find_path_bfs, if_neg (by simp [hs, ht])]
  by_cases hst : start = target
  · subst hst
    rw [if_pos rfl]
    constructor
    · intro p hp
      obtain rfl : p = [start] := (Option.some_inj.mp hp).symm
      exact ⟨isPath_singleton g start, fun P hP => hP.length_pos⟩
    · constructor
      · intro h
        exact Option.noConfusion h
      · intro hn
        exact absurd (Reaches.refl start) hn
  · rw [if_neg hst]
    have hspec := @fpBfsLoop_spec g start target hst [(start, [start])] ∅
      ⟨fun _ => 0, fpBfsInv_init hst⟩
    refine ⟨fun p hp => ?_, hspec.2, fun hnr => ?_⟩
    · obtain ⟨h1, _, h3⟩ := hspec.1 p hp
      exact ⟨h1, h3⟩
    · cases hres : fpBfsLoop g target [(start, [start])] ∅ with
      | none => rfl
      | some r =>
        obtain ⟨hpath, _, _⟩ := hspec.1 r hres
        exact absurd (reaches_iff_exists_path.mpr ⟨r, hpath⟩) hnr

/-- C2: on a closed graph (the data-model invariant) the iterative
depth-first search returns exactly the same vertex sequence as the
recursive depth-first search started with an empty visited set. -/
theorem dfs_iterative_agrees_with_recursive {g : Graph} (hcl : g.closed)
    (start : String) :
    g.depth_first_search start = g.dfs_recursive start :=
  dfs_iterative_eq_recursive hcl start

/-- C3: for a key `v` of a closed graph, `breadth_first_search v`,
`depth_first_search v` and `dfs_recursive v` all have the same length and
each contains exactly the vertices forward-reachable from `v`. -/
theorem traversals_same_length_and_set {g : Graph} (hcl : g.closed)
    {v : String} (hv : v ∈ g.keys) :
    ((g.breadth_first_search v).length = (g.depth_first_search v).length ∧
     (g.depth_first_search v).length = (g.dfs_recursive v).length) ∧
    (∀ w, w ∈ g.breadth_first_search v ↔ Reaches g v w) ∧
    (∀ w, w ∈ g.depth_first_search v ↔ Reaches g v w) ∧
    (∀ w, w ∈ g.dfs_recursive v ↔ Reaches g v w) := by
  have hrec : g.dfs_recursive v = g.depth_first_search v :=
    (dfs_iterative_eq_recursive hcl v).symm
  have hbfs := breadth_first_search_mem_iff hv
  have hdfs := depth_first_search_mem_iff hv
  have hset : (g.breadth_first_search v).toFinset =
      (g.depth_first_search v).toFinset := by
    ext w
    rw [List.mem_toFinset, List.mem_toFinset, hbfs w, hdfs w]
  refine ⟨⟨?_, ?_⟩, hbfs, hdfs, fun w => by rw [hrec]; exact hdfs w⟩
  · rw [← List.toFinset_card_of_nodup (breadth_first_search_nodup g v),
      ← List.toFinset_card_of_nodup (depth_first_search_nodup g v), hset]
  · rw [hrec]

/-- C4: on a closed graph, the concatenation of the components returned by
`connected_components_bfs` lists every vertex of the graph exactly once
(no repetition within or across components, union equal to the key set),
and the empty graph yields the empty component list. -/
theorem connected_components_partition {g : Graph} (hcl : g.closed) :
    g.connected_components_bfs.flatten.Nodup ∧
    (∀ w, w ∈ g.connected_components_bfs.flatten ↔ w ∈ g.keys) ∧
    (g.adj = [] → g.connected_components_bfs = []) := by
  obtain ⟨h1, h2, h3⟩ := ccLoop_spec hcl g.keys ∅ (fun x hx => hx)
  refine ⟨h1, ?_, ?_⟩
  · intro w
    constructor
    · intro hw
      exact (h2 w hw).2
    · intro hw
      rcases h3 w hw with hV | hj
      · exact absurd hV (Finset.not_mem_empty w)
      · exact hj
  · intro h
    rw [connected_components_bfs, show g.keys = [] by simp [keys, h]]
    rfl

/-- C5: every traversal returns the empty sequence on an unknown start
vertex, and both path finders return `None` when either endpoint is
unknown; no operation fails. -/
theorem unknown_vertex_empty_results (g : Graph) :
    (∀ v, v ∉ g.keys → g.breadth_first_search v = [] ∧
      g.depth_first_search v = [] ∧ g.dfs_recursive v = []) ∧
    (∀ s t, s ∉ g.keys ∨ t ∉ g.keys →
      g.find_path_bfs s t = none ∧ g.find_path_dfs s t = none) := by
  constructor
  · intro v hv
    refine ⟨?_, ?_, ?_⟩
    · rw [breadth_first_search, if_pos hv]
    · rw [depth_first_search, if_pos hv]
    · rw [dfs_recursive, dfsL, if_pos (Or.inl hv), dfsL]
  · intro s t hst
    constructor
    · rw [find_path_bfs, if_pos hst]
    · rw [find_path_dfs, if_pos hst]

/-- C6: on a closed graph every query operation, run with the
`defaultdict` subscript accesses modelled explicitly, returns its pure
result and leaves the graph (adjacency mapping and directed flag)
unchanged. -/
theorem queries_leave_graph_unchanged {g : Graph} (hcl : g.closed) :
    (∀ v, g.breadth_first_searchS v = (g.breadth_first_search v, g)) ∧
    (∀ v, g.depth_first_searchS v = (g.depth_first_search v, g)) ∧
    (∀ v, g.dfs_recursiveS v = (g.dfs_recursive v, g)) ∧
    (∀ s t, g.find_path_bfsS s t = (g.find_path_bfs s t, g)) ∧
    (∀ s t, g.find_path_dfsS s t = (g.find_path_dfs s t, g)) ∧
    g.connected_components_bfsS = (g.connected_components_bfs, g) ∧
    g.is_connectedS = (g.is_connected, g) ∧
    (∀ v, g.get_neighborsS v = (g.get_neighbors v, g)) ∧
    g.get_verticesS = (g.get_vertices, g) := by
  have hbfs : ∀ v, g.breadth_first_searchS v = (g.breadth_first_search v, g) := by
    intro v
    by_cases hv : v ∈ g.keys
    · rw [breadth_first_searchS, if_neg (by simpa using hv),
        breadth_first_search, if_neg (by simpa using hv)]
      exact bfsLoopS_eq g [v] ∅ hcl (by simpa using hv)
    · rw [breadth_first_searchS, if_pos hv, breadth_first_search, if_pos hv]
  refine ⟨hbfs, ?_, ?_, ?_, ?_, ?_, ?_, fun v => rfl, rfl⟩
  · intro v
    by_cases hv : v ∈ g.keys
    · rw [depth_first_searchS, if_neg (by simpa using hv),
        depth_first_search, if_neg (by simpa using hv)]
      exact dfsLoopS_eq g [v] ∅ hcl (by simpa using hv)
    · rw [depth_first_searchS, if_pos hv, depth_first_search, if_pos hv]
  · intro v
    rfl
  · intro s t
    by_cases hk : s ∉ g.keys ∨ t ∉ g.keys
    · rw [find_path_bfsS, if_pos hk, find_path_bfs, if_pos hk]
    · rw [find_path_bfsS, if_neg hk, find_path_bfs, if_neg hk]
      by_cases hst : s = t
      · rw [if_pos hst, if_pos hst]
      · rw [if_neg hst, if_neg hst]
        rw [not_or, not_not, not_not] at hk
        exact fpBfsLoopS_eq t g [(s, [s])] ∅ hcl
          (fun e he => (List.mem_singleton.mp he) ▸ hk.1)
  · intro s t
    by_cases hk : s ∉ g.keys ∨ t ∉ g.keys
    · rw [find_path_dfsS, if_pos hk, find_path_dfs, if_pos hk]
    · rw [find_path_dfsS, if_neg hk, find_path_dfs, if_neg hk]
      by_cases hst : s = t
      · rw [if_pos hst, if_pos hst]
      · rw [if_neg hst, if_neg hst]
        rw [not_or, not_not, not_not] at hk
        exact fpDfsLoopS_eq t g [(s, [s])] ∅ hcl
          (fun e he => (List.mem_singleton.mp he) ▸ hk.1)
  · rw [connected_components_bfsS, connected_components_bfs]
    exact ccLoopS_eq hcl g.keys ∅ (fun x hx => hx)
  · rcases hadj : g.adj with _ | ⟨⟨k, l⟩, rest⟩
    · rw [is_connectedS, is_connected, hadj]
    · have hk : k ∈ g.keys := by
        rw [keys, hadj]
        exact List.mem_cons_self _ _
      rw [is_connectedS, is_connected, hadj]
      simp only [hbfs k]
      rw [hadj]

/-- C7: closedness of the adjacency mapping (every neighbor is a key) holds
for the empty graph and is preserved by `add_vertex` and `add_edge`;
moreover `add_edge u v` appends `v` to `u`'s list and, on an undirected
graph, also `u` to `v`'s list in the same call (twice to the same list for
an undirected self-loop), while on a directed graph only `u`'s list
changes. -/
theorem mutation_invariant_and_append :
    (∀ d : Bool, closed ⟨d, []⟩) ∧
    (∀ (g : Graph) (v : String), g.closed → (g.add_vertex v).closed) ∧
    (∀ (g : Graph) (u v : String), g.closed → (g.add_edge u v).closed) ∧
    (∀ (g : Graph) (u v : String), g.directed = false → u ≠ v →
      (g.add_edge u v).get_neighbors u = g.get_neighbors u ++ [v] ∧
      (g.add_edge u v).get_neighbors v = g.get_neighbors v ++ [u]) ∧
    (∀ (g : Graph) (u : String), g.directed = false →
      (g.add_edge u u).get_neighbors u = g.get_neighbors u ++ [u, u]) ∧
    (∀ (g : Graph) (u v : String), g.directed = true →
      (g.add_edge u v).get_neighbors u = g.get_neighbors u ++ [v] ∧
      ∀ w, w ≠ u → (g.add_edge u v).get_neighbors w = g.get_neighbors w) :=
  ⟨closed_empty, fun _ v hcl => closed_add_vertex hcl v,
   fun _ u v hcl => closed_add_edge hcl u v,
   fun _ _ _ hd huv => add_edge_neighbors_undirected hd huv,
   fun _ u hd => add_edge_neighbors_self_loop hd u,
   fun _ u v hd => add_edge_neighbors_directed hd u v⟩

/-- C8: `is_connected` returns `True` on the empty graph, and on a
nonempty graph it returns `True` exactly when the set of vertices visited
by a BFS from the first key in mapping order has as many elements as there
are keys. -/
theorem is_connected_characterization (g : Graph) :
    (g.adj = [] → g.is_connected = true) ∧
    (∀ k l rest, g.adj = (k, l) :: rest →
      (g.is_connected = true ↔
        (g.breadth_first_search k).toFinset.card = g.adj.length)) := by
  constructor
  · intro h
    rw [is_connected, h]
  · intro k l rest hadj
    rw [is_connected, hadj]
    simp only [beq_iff_eq, hadj]

/-- C9: for any key `v`, `find_path_bfs v v` and `find_path_dfs v v`
return the one-element path `[v]` (the `start == target` early return runs
before any traversal, so self-loops are irrelevant). -/
theorem find_path_to_self (g : Graph) (v : String) (hv : v ∈ g.keys) :
    g.find_path_bfs v v = some [v] ∧ g.find_path_dfs v v = some [v] := by
  constructor
  · rw [find_path_bfs, if_neg (by simp [hv]), if_pos rfl]
  · rw [find_path_dfs, if_neg (by simp [hv]), if_pos rfl]

/-- C10: any path returned by `find_path_bfs` or `find_path_dfs` is a
genuine simple path: it starts at `start`, ends at `target`, every
consecutive pair is a recorded edge, and no vertex repeats. -/
theorem returned_paths_are_simple (g : Graph) (start target : String) :
    (∀ p, g.find_path_bfs start target = some p →
      p.head? = some start ∧ p.getLast? = some target ∧
      p.Chain' (fun a b => b ∈ g.get_neighbors a) ∧ p.Nodup) ∧
    (∀ p, g.find_path_dfs start target = some p →
      p.head? = some start ∧ p.getLast? = some target ∧
      p.Chain' (fun a b => b ∈ g.get_neighbors a) ∧ p.Nodup) := by
  constructor
  · intro p hp
    rw [find_path_bfs] at hp
    by_cases hk : start ∉ g.keys ∨ target ∉ g.keys
    · rw [if_pos hk] at hp
      exact Option.noConfusion hp
    rw [if_neg hk] at hp
    by_cases hst : start = target
    · rw [if_pos hst] at hp
      obtain rfl : p = [start] := (Option.some_inj.mp hp).symm
      subst hst
      exact ⟨rfl, rfl, List.chain'_singleton _, List.nodup_singleton _⟩
    · rw [if_neg hst] at hp
      obtain ⟨hpath, hnd, _⟩ := (fpBfsLoop_spec hst [(start, [start])] ∅
        ⟨fun _ => 0, fpBfsInv_init hst⟩).1 p hp
      exact ⟨hpath.1, hpath.2.1, hpath.2.2, hnd⟩
  · intro p hp
    rw [find_path_dfs] at hp
    by_cases hk : start ∉ g.keys ∨ target ∉ g.keys
    · rw [if_pos hk] at hp
      exact Option.noConfusion hp
    rw [if_neg hk] at hp
    by_cases hst : start = target
    · rw [if_pos hst] at hp
      obtain rfl : p = [start] := (Option.some_inj.mp hp).symm
      subst hst
      exact ⟨rfl, rfl, List.chain'_singleton _, List.nodup_singleton _⟩
    · rw [if_neg hst] at hp
      obtain ⟨hpath, hnd⟩ := fpDfsLoop_spec [(start, [start])] ∅
        (fpDfsInv_init hst) p hp
      exact ⟨hpath.1, hpath.2.1, hpath.2.2, hnd⟩

/-! ### Concrete instances -/

/-- The undirected path graph A – B – C, built through the mutation API. -/
def wgW : Graph := ((Graph.mk false []).add_edge "A" "B").add_edge "B" "C"

/-- A single undirected self-loop on A, built through the mutation API. -/
def wglW : Graph := (Graph.mk false []).add_edge "A" "A"

/-- The adjacency mapping of `wgW`, written out literally. -/
def wpW : Graph := ⟨false, [("A", ["B"]), ("B", ["A", "C"]), ("C", ["B"])]⟩

theorem find_path_bfs_shortest_witness :
    ("A" ∈ wgW.keys ∧ "C" ∈ wgW.keys) ∧
    ((∀ p, wgW.find_path_bfs "A" "C" = some p →
      IsPath wgW "A" "C" p ∧
      ∀ P, IsPath wgW "A" "C" P → p.length ≤ P.length) ∧
    (wgW.find_path_bfs "A" "C" = none ↔ ¬ Reaches wgW "A" "C")) :=
  ⟨⟨by decide, by decide⟩,
   @find_path_bfs_shortest wgW "A" "C" (by decide) (by decide)⟩

theorem dfs_iterative_agrees_with_recursive_witness :
    wgW.closed ∧ wgW.depth_first_search "A" = wgW.dfs_recursive "A" :=
  ⟨by decide, @dfs_iterative_agrees_with_recursive wgW (by decide) "A"⟩

theorem traversals_same_length_and_set_witness :
    (wgW.closed ∧ "A" ∈ wgW.keys) ∧
    ((wgW.breadth_first_search "A").length =
      (wgW.depth_first_search "A").length ∧
     (wgW.depth_first_search "A").length = (wgW.dfs_recursive "A").length) :=
  ⟨⟨by decide, by decide⟩,
   (@traversals_same_length_and_set wgW (by decide) "A" (by decide)).1⟩

theorem connected_components_partition_witness :
    wgW.closed ∧ wgW.connected_components_bfs.flatten.Nodup :=
  ⟨by decide, (@connected_components_partition wgW (by decide)).1⟩

theorem unknown_vertex_empty_results_witness :
    ("Z" ∉ wgW.keys) ∧
    (wgW.breadth_first_search "Z" = [] ∧ wgW.depth_first_search "Z" = [] ∧
      wgW.dfs_recursive "Z" = []) ∧
    (wgW.find_path_bfs "Z" "A" = none ∧ wgW.find_path_dfs "Z" "A" = none) :=
  ⟨by decide, (unknown_vertex_empty_results wgW).1 "Z" (by decide),
   (unknown_vertex_empty_results wgW).2 "Z" "A" (Or.inl (by decide))⟩

theorem queries_leave_graph_unchanged_witness :
    wgW.closed ∧
    wgW.breadth_first_searchS "A" = (wgW.breadth_first_search "A", wgW) :=
  ⟨by decide, (@queries_leave_graph_unchanged wgW (by decide)).1 "A"⟩

theorem mutation_invariant_and_append_witness :
    wgW.closed ∧ (wgW.add_edge "A" "C").closed ∧
    (wgW.directed = false ∧ ("A" : String) ≠ "C") ∧
    ((wgW.add_edge "A" "C").get_neighbors "A" =
      wgW.get_neighbors "A" ++ ["C"] ∧
     (wgW.add_edge "A" "C").get_neighbors "C" =
      wgW.get_neighbors "C" ++ ["A"]) :=
  ⟨by decide, mutation_invariant_and_append.2.2.1 wgW "A" "C" (by decide),
   ⟨by decide, by decide⟩,
   mutation_invariant_and_append.2.2.2.1 wgW "A" "C" (by decide) (by decide)⟩

theorem is_connected_characterization_witness :
    wgW.adj = ("A", ["B"]) :: [("B", ["A", "C"]), ("C", ["B"])] ∧
    (wgW.is_connected = true ↔
      (wgW.breadth_first_search "A").toFinset.card = wgW.adj.length) :=
  ⟨by decide, (is_connected_characterization wgW).2 "A" ["B"]
    [("B", ["A", "C"]), ("C", ["B"])] (by decide)⟩

theorem find_path_to_self_witness :
    ("A" ∈ wglW.keys) ∧
    (wglW.find_path_bfs "A" "A" = some ["A"] ∧
     wglW.find_path_dfs "A" "A" = some ["A"]) :=
  ⟨by decide, find_path_to_self wglW "A" (by decide)⟩

theorem returned_paths_are_simple_witness :
    (wpW.find_path_bfs "A" "C" = some ["A", "B", "C"] ∧
     wpW.find_path_dfs "A" "C" = some ["A", "B", "C"]) ∧
    ((["A", "B", "C"] : List String).head? = some "A" ∧
     (["A", "B", "C"] : List String).getLast? = some "C" ∧
     (["A", "B", "C"] : List String).Chain'
       (fun a b => b ∈ wpW.get_neighbors a) ∧
     (["A", "B", "C"] : List String).Nodup) := by
  have h1 : wpW.find_path_bfs "A" "C" = some ["A", "B", "C"] := by
    simp +decide [find_path_bfs, fpBfsLoop, fpScan, wpW, get_neighbors,
      lookupAdj, keys, Except.map]
  have h2 : wpW.find_path_dfs "A" "C" = some ["A", "B", "C"] := by
    simp +decide [find_path_dfs, fpDfsLoop, fpScan, wpW, get_neighbors,
      lookupAdj, keys, Except.map]
  exact ⟨⟨h1, h2⟩,
    (returned_paths_are_simple wpW "A" "C").1 ["A", "B", "C"] h1⟩

end Graph
